import Mathlib

/-!
# go-zero, goctl: the api type parser and the cache-key generator

A shallow embedding of

* `tools/goctl/api/parser/typeparser.go` (`parseStructAst`, `parseObject`,
  `parseFields`, `getInlineName`, `getInlineTypePrefix`, `parseTag`,
  `parseType`, `isBasicType`, `parseName`, `parseIdent`,
  `parseCommentOrDoc`), namespace `ApiParser`;
* `tools/goctl/model/sql/gen/keys.go` (`Key`, `genCacheKeys`), namespace `Gen`.

Go strings are Lean `String`s; `fmt.Sprintf` with `%s` verbs is string
concatenation.  Go's `<` on strings compares bytes of the UTF-8 encoding, which
is the code point order Lean's `<` on `String` uses.

The syntax tree of `go/ast` is a graph: an identifier points to the object it
resolves to, and the object's declaration contains identifiers again.  Pointers
to `ast.Object` are addresses (`Nat`) into a heap `Nat → Object`.

The package-level variable `objectM` is threaded through every function as an
explicit state.  A function of the recursive group returns
`Option (Except Error α × Cache)`: `none` when the recursion budget of the model
is used up (the Go program would still be running), otherwise the Go result
together with the content of `objectM` afterwards.
-/

namespace ApiParser

/-! ## Syntax tree (`go/ast`), restricted to what the parser reads -/

/-- A field of a struct type, `ast.Field`, over the expression type `E`.
`Names` holds the names of the identifiers (`none` for a nil pointer), `Tag`
the value of the tag literal, `Doc` and `Comment` the texts of the comment
groups (`none` for a nil group, and inside a group `none` for a nil comment). -/
structure Field (E : Type) where
  Doc : Option (List (Option String))
  Names : List (Option String)
  Typ : E
  Tag : Option String
  Comment : Option (List (Option String))

/-- Type expressions, `ast.Expr`, by dynamic type.  `nil` is the nil interface
value; `Other` stands for every node kind `parseType` has no case for.  `Obj`
of an identifier is the address of the object it resolves to.  `Fields` of a
struct type is `none` for a nil `*ast.FieldList`. -/
inductive Expr where
  | nil : Expr
  | StarExpr (X : Expr) : Expr
  | Ident (Name : String) (Obj : Option Nat) : Expr
  | MapType (Key Value : Expr) : Expr
  | ArrayType (Elt : Expr) : Expr
  | InterfaceType : Expr
  | ChanType : Expr
  | FuncType : Expr
  | StructType (Fields : Option (List (Field Expr))) : Expr
  | SelectorExpr (X : Expr) (Sel : String) : Expr
  | Other : Expr

/-- The dynamic type of `ast.Object.Decl`, with the payload the parser reads:
the `Type` of a type spec (`Typ`). -/
inductive Decl where
  | nil : Decl
  | Ident : Decl
  | StarExpr : Decl
  | TypeSpec (Typ : Expr) : Decl
  | Other : Decl

/-- An `ast.Object`. -/
structure Object where
  Name : String
  Decl : Decl

/-- The part of `ast.File` that `parseStructAst` reads, with the heap of the
objects the file's identifiers point to.  `Scope` is `none` for a nil scope and
otherwise lists the entries of the map `scope.Objects`, name and address of the
object, in the order the `range` loop visits them. -/
structure File where
  heap : Nat → Object
  Scope : Option (List (String × Nat))

/-! ## Result types (package `spec`) -/

/-- Modelled from the spec: the type declaration `spec.Member` is not among the
sources; these are the fields `parseFields` assigns, over the type `E` of the
values stored in `Expr`.  `Typ` is the Go field `Type`, as in `Field`. -/
structure Member (E : Type) where
  Name : String
  Typ : String
  Expr : E
  Tag : String
  Comments : List String
  Docs : List String
  IsInline : Bool

/-- Modelled from the spec: the type declaration `spec.Type` is not among the
sources; these are the fields `parseObject` assigns. -/
structure SpecTypeOf (E : Type) where
  Name : String
  Members : List (Member E)

/-- Modelled from the spec: the declarations of `spec.BasicType`,
`spec.PointerType`, `spec.MapType`, `spec.ArrayType`, `spec.InterfaceType`,
`spec.TimeType`, `spec.StructType` are not among the sources; these are the
values `parseType` returns in its first result, by dynamic type, with the fields
it assigns.  `Typ` is a `*spec.Type`. -/
inductive TypeExpr where
  | BasicType (Name StringExpr : String) : TypeExpr
  | PointerType (Star : TypeExpr) (StringExpr : String) : TypeExpr
  | MapType (Key : String) (Value : TypeExpr) (StringExpr : String) : TypeExpr
  | ArrayType (ArrayType : TypeExpr) (StringExpr : String) : TypeExpr
  | InterfaceType (StringExpr : String) : TypeExpr
  | TimeType (StringExpr : String) : TypeExpr
  | StructType (StringExpr : String) : TypeExpr
  | Typ (t : SpecTypeOf TypeExpr) : TypeExpr

/-- The Go type `spec.Type`. -/
abbrev SpecType := SpecTypeOf TypeExpr

/-- The errors the parser returns. -/
inductive Error where
  | ErrStructNotFound : Error
  | ErrUnSupportType : Error
  | ErrUnSupportInlineType : Error
  | chanUnsupport : Error
  | funcUnsupport : Error
  | structUnsupport : Error
  | memberNotExist (name : String) : Error
  | mapKeyUnsupport (key : Expr) : Error
  | outterPackage (name : String) : Error
  | parseError (msg : String) : Error

/-- The content of the map `objectM`. -/
abbrev Cache := String → Option SpecType

/-- The map assignment `objectM[structName] = &st`. -/
def Cache.set (m : Cache) (structName : String) (st : SpecType) : Cache :=
  fun k => if k = structName then some st else m k

/-- Result of a function that reads and writes `objectM`. -/
abbrev Res (α : Type) := Option (Except Error α × Cache)

/-! ## The functions of `typeparser.go` -/

def interfaceExpr : String := "interface\x7b\x7d"

def pkgPrefix : String := "package"

/-- The format `golangF` applied to its argument. -/
def golangF (s : String) : String := "package ast\n\t" ++ s ++ "\n"

/-- The function `strings.HasPrefix`. -/
def HasPrefix (s pre : String) : Bool := pre.data.isPrefixOf s.data

def isBasicType (tp : String) : Bool :=
  tp ∈ ["bool", "uint8", "uint16", "uint32", "uint64", "int8", "int16", "int32",
    "int64", "float32", "float64", "complex64", "complex128", "string", "int",
    "uint", "uintptr", "byte", "rune", "Type", "Type1", "IntegerType",
    "FloatType", "ComplexType"]

def parseIdent (ident : Option String) : String :=
  match ident with
  | none => ""
  | some name => name

def parseName (names : List (Option String)) : String :=
  match names with
  | [] => ""
  | name :: _ => parseIdent name

def parseTag (basicLit : Option String) : String :=
  match basicLit with
  | none => ""
  | some value => value

/-- The predicate `unicode.IsSpace`. -/
def isSpace (c : Char) : Bool :=
  c.val ∈ ([0x09, 0x0A, 0x0B, 0x0C, 0x0D, 0x20, 0x85, 0xA0, 0x1680, 0x2028,
    0x2029, 0x202F, 0x205F, 0x3000] : List UInt32) ||
  (0x2000 ≤ c.val && c.val ≤ 0x200A)

/-- The function `strings.TrimSpace`. -/
def TrimSpace (s : String) : String :=
  String.mk ((s.data.dropWhile isSpace).reverse.dropWhile isSpace).reverse

def parseCommentOrDoc (cg : Option (List (Option String))) : List String :=
  match cg with
  | none => []
  | some list =>
    list.foldl (fun comments comment =>
      match comment with
      | none => comments
      | some text =>
        let text := TrimSpace text
        if text = "" then comments else comments ++ [text]) []

def getInlineName : TypeExpr → Except Error String
  | .Typ v => .ok v.Name
  | .PointerType Star _ => getInlineName Star
  | .StructType StringExpr => .ok StringExpr
  | _ => .error .ErrUnSupportInlineType

def getInlineTypePrefix (tp : Decl) : Except Error String :=
  match tp with
  | .nil => .ok ""
  | .Ident => .ok ""
  | .StarExpr => .ok "*"
  | .TypeSpec _ => .ok ""
  | .Other => .error .ErrUnSupportInlineType

/-- The function `parseType`.  Its call of `parseObject` goes through the
argument `po`, which `parseObject` below instantiates with itself. -/
def parseType (po : String → Object → Cache → Res SpecType) (heap : Nat → Object) :
    Expr → Cache → Res (TypeExpr × String)
  | .nil, objectM => some (.error .ErrUnSupportType, objectM)
  | .StarExpr X, objectM =>
    match parseType po heap X objectM with
    | none => none
    | some (.error err, m) => some (.error err, m)
    | some (.ok (star, stringExpr), m) =>
      let e := "*" ++ stringExpr
      some (.ok (.PointerType star e, e), m)
  | .Ident Name Obj, objectM =>
    if isBasicType Name then
      some (.ok (.BasicType Name Name, Name), objectM)
    else
      match Obj with
      | some a =>
        let obj := heap a
        if obj.Name ≠ Name then
          match po Name obj objectM with
          | none => none
          | some (.error err, m) => some (.error err, m)
          | some (.ok specType, m) => some (.ok (.Typ specType, obj.Name), m)
        else
          match getInlineTypePrefix obj.Decl with
          | .error err => some (.error err, objectM)
          | .ok inlineType => some (.ok (.StructType (inlineType ++ Name), Name), objectM)
      | none => some (.error (.memberNotExist Name), objectM)
  | .MapType Key Value, objectM =>
    match parseType po heap Key objectM with
    | none => none
    | some (.error err, m) => some (.error err, m)
    | some (.ok (key, keyStringExpr), m) =>
      match parseType po heap Value m with
      | none => none
      | some (.error err, m1) => some (.error err, m1)
      | some (.ok (value, valueStringExpr), m1) =>
        match key with
        | .BasicType keyName _ =>
          let e := "map[" ++ keyStringExpr ++ "]" ++ valueStringExpr
          some (.ok (.MapType keyName value e, e), m1)
        | _ => some (.error (.mapKeyUnsupport Key), m1)
  | .ArrayType Elt, objectM =>
    match parseType po heap Elt objectM with
    | none => none
    | some (.error err, m) => some (.error err, m)
    | some (.ok (arrayType, stringExpr), m) =>
      let e := "[]" ++ stringExpr
      some (.ok (.ArrayType arrayType e, e), m)
  | .InterfaceType, objectM =>
    some (.ok (.InterfaceType interfaceExpr, interfaceExpr), objectM)
  | .ChanType, objectM => some (.error .chanUnsupport, objectM)
  | .FuncType, objectM => some (.error .funcUnsupport, objectM)
  | .StructType _, objectM => some (.error .structUnsupport, objectM)
  | .SelectorExpr x sel, objectM =>
    match x with
    | .Ident name _ =>
      if name ≠ "time" && sel ≠ "Time" then
        some (.error (.outterPackage name), objectM)
      else
        let tm := "time.Time"
        some (.ok (.TimeType tm, tm), objectM)
    | _ => some (.error .ErrUnSupportType, objectM)
  | .Other, objectM => some (.error .ErrUnSupportType, objectM)

/-- The loop of `parseFields`: `members` is the slice built so far. -/
def parseFieldsLoop (po : String → Object → Cache → Res SpecType) (heap : Nat → Object) :
    List (Field Expr) → List (Member TypeExpr) → Cache → Res (List (Member TypeExpr))
  | [], members, objectM => some (.ok members, objectM)
  | field :: rest, members, objectM =>
    let docs := parseCommentOrDoc field.Doc
    let comments := parseCommentOrDoc field.Comment
    let name := parseName field.Names
    match parseType po heap field.Typ objectM with
    | none => none
    | some (.error err, m) => some (.error err, m)
    | some (.ok (tp, stringExpr), m) =>
      let tag := parseTag field.Tag
      let isInline := decide (name = "")
      if isInline then
        match getInlineName tp with
        | .error err => some (.error err, m)
        | .ok name =>
          parseFieldsLoop po heap rest (members ++ [{
            Name := name, Typ := stringExpr, Expr := tp, Tag := tag,
            Comments := comments, Docs := docs, IsInline := isInline }]) m
      else
        parseFieldsLoop po heap rest (members ++ [{
          Name := name, Typ := stringExpr, Expr := tp, Tag := tag,
          Comments := comments, Docs := docs, IsInline := isInline }]) m

def parseFields (po : String → Object → Cache → Res SpecType) (heap : Nat → Object)
    (fields : List (Field Expr)) (objectM : Cache) : Res (List (Member TypeExpr)) :=
  parseFieldsLoop po heap fields [] objectM

/-- The function `parseObject`; `fuel` bounds the depth of the calls of
`parseObject` from `parseType`. -/
def parseObject (heap : Nat → Object) : Nat → String → Object → Cache → Res SpecType
  | 0, _, _, _ => none
  | fuel + 1, structName, obj, objectM =>
    match objectM structName with
    | some data => some (.ok data, objectM)
    | none =>
      let st : SpecType := { Name := structName, Members := [] }
      match obj.Decl with
      | .TypeSpec (.StructType (some fieldList)) =>
        match parseFields (parseObject heap fuel) heap fieldList objectM with
        | none => none
        | some (.error err, m) => some (.error err, m)
        | some (.ok members, m) =>
          let st : SpecType := { st with Members := members }
          some (.ok st, m.set structName st)
      | _ => some (.ok st, objectM.set structName st)

/-- Go's `<` on strings, decided on the lists of characters. -/
def strLess (a b : String) : Bool := decide (a.data < b.data)

/-- The function `sort.Slice` of the standard library, as insertion of each
element before the first one that is not less than it.  Go leaves the order of
elements that compare equal open. -/
def sortInsert {α : Type} (less : α → α → Bool) (x : α) : List α → List α
  | [] => [x]
  | y :: ys => if less y x then y :: sortInsert less x ys else x :: y :: ys

def sortSlice {α : Type} (less : α → α → Bool) (l : List α) : List α :=
  l.foldr (sortInsert less) []

/-- The first loop of `parseStructAst`: `structs` is the slice built so far. -/
def parseObjects (heap : Nat → Object) (fuel : Nat) :
    List (String × Nat) → List SpecType → Cache → Res (List SpecType)
  | [], structs, objectM => some (.ok structs, objectM)
  | (structName, obj) :: rest, structs, objectM =>
    match parseObject heap fuel structName (heap obj) objectM with
    | none => none
    | some (.error err, m) => some (.error err, m)
    | some (.ok st, m) => parseObjects heap fuel rest (structs ++ [st]) m

/-- The function `parseStructAst`.  `parseFile` is `parser.ParseFile` of the
standard library followed by the comment filtering. -/
def parseStructAst (parseFile : String → Except String File) (fuel : Nat)
    (golang : String) (objectM : Cache) : Res (List SpecType) :=
  let golang := if !HasPrefix golang pkgPrefix then golangF golang else golang
  match parseFile golang with
  | .error err => some (.error (.parseError err), objectM)
  | .ok f =>
    match f.Scope with
    | none => some (.error .ErrStructNotFound, objectM)
    | some objects =>
      match parseObjects f.heap fuel objects [] objectM with
      | none => none
      | some (.error err, m) => some (.error err, m)
      | some (.ok structs, m) =>
        some (.ok (sortSlice (fun a b => strLess a.Name b.Name) structs), m)

/-! ## What `go/parser` guarantees of its output -/

/-- Every identifier that `parseType` visits in an expression and that points
to an object satisfies `p` (given the identifier's name and the object). -/
def identsAll (p : String → Object → Bool) (heap : Nat → Object) : Expr → Bool
  | .StarExpr X => identsAll p heap X
  | .Ident Name (some a) => p Name (heap a)
  | .MapType Key Value => identsAll p heap Key && identsAll p heap Value
  | .ArrayType Elt => identsAll p heap Elt
  | _ => true

/-- The resolution invariant of `go/parser`: the object of an identifier is the
one found under the identifier's name in the scopes (`ident.Obj =
scope.Lookup(ident.Name)`, each object inserted under `obj.Name`), so it carries
that name. -/
def resolvedNames (heap : Nat → Object) (e : Expr) : Bool :=
  identsAll (fun name obj => decide (obj.Name = name)) heap e

/-- In `go/ast` the `Decl` of an object is a `Field`, `XxxSpec`, `FuncDecl`,
`LabeledStmt`, `AssignStmt`, `Scope` or nil; in particular not a pointer
expression. -/
def declKinds (heap : Nat → Object) (e : Expr) : Bool :=
  identsAll (fun _ obj => match obj.Decl with | .StarExpr => false | _ => true) heap e

/-- The field list that `parseObject` hands to `parseFields`, empty when it
returns before. -/
def fieldsOf (obj : Object) : List (Field Expr) :=
  match obj.Decl with
  | .TypeSpec (.StructType (some fieldList)) => fieldList
  | _ => []

/-- The names of a field as `go/parser` builds them: every identifier is
present (not nil) and its name is not empty. -/
def identNames (names : List (Option String)) : Bool :=
  names.all (fun n => match n with
    | some name => decide (name ≠ "")
    | none => false)

/-- The type expression under its pointer markers names this base type. -/
def baseName : Expr → Option String
  | .StarExpr X => baseName X
  | .Ident Name _ => some Name
  | _ => none

/-- The canonical rendering of a type: `*` before the rendering of the target
of a pointer, `map[K]` before that of the value of a map, `[]` before that of
the element of a sequence, and the name of a basic type, of a definition or of
a placeholder. -/
def render : TypeExpr → String
  | .BasicType Name _ => Name
  | .PointerType Star _ => "*" ++ render Star
  | .MapType Key Value _ => "map[" ++ Key ++ "]" ++ render Value
  | .ArrayType ArrayType _ => "[]" ++ render ArrayType
  | .InterfaceType _ => "interface\x7b\x7d"
  | .TimeType _ => "time.Time"
  | .StructType StringExpr => StringExpr
  | .Typ t => t.Name

/-- The string expression a returned value carries: its field `StringExpr`, and
for a `*spec.Type` its `Name`. -/
def stringExprOf : TypeExpr → String
  | .BasicType _ StringExpr => StringExpr
  | .PointerType _ StringExpr => StringExpr
  | .MapType _ _ StringExpr => StringExpr
  | .ArrayType _ StringExpr => StringExpr
  | .InterfaceType StringExpr => StringExpr
  | .TimeType StringExpr => StringExpr
  | .StructType StringExpr => StringExpr
  | .Typ t => t.Name

/-- The expression `e` under `n` pointer markers. -/
def stars : Nat → Expr → Expr
  | 0, e => e
  | n + 1, e => .StarExpr (stars n e)

/-- The type `t` with string form `s` behind `n` pointers, each pointer
carrying the string form of its target with one more `*` in front. -/
def pointers : Nat → TypeExpr → String → TypeExpr
  | 0, t, _ => t
  | n + 1, t, s => .PointerType (pointers n t s) (String.mk (List.replicate (n + 1) '*') ++ s)

/-- A recursion handle that never returns, for inputs that do not reach it. -/
def noObject : String → Object → Cache → Res SpecType := fun _ _ _ => none

/-- The expression is a channel, function or inline struct type, or has one as
the target of a pointer, the element of a sequence, or the key or value of a
map. -/
def containsUnsupported : Expr → Bool
  | .ChanType => true
  | .FuncType => true
  | .StructType _ => true
  | .StarExpr X => containsUnsupported X
  | .ArrayType Elt => containsUnsupported Elt
  | .MapType Key Value => containsUnsupported Key || containsUnsupported Value
  | _ => false

/-- Under its pointers the type is a definition (`*spec.Type`) or an inline
placeholder (`*spec.StructType`). -/
def namedUnderPointers : TypeExpr → Bool
  | .PointerType Star _ => namedUnderPointers Star
  | .Typ _ => true
  | .StructType _ => true
  | _ => false

/-- The invariant of `objectM`: the definition stored under a name carries
that name.  The empty map has it and every assignment in `parseObject` keeps
it, since it stores `st` with `st.Name = structName` under `structName`. -/
def CacheOk (c : Cache) : Prop := ∀ k t, c k = some t → t.Name = k

/-- What `parseObject` guarantees of its result, stated for a recursion handle:
started with the invariant of `objectM`, it leaves the invariant in place, and a
definition it returns carries the name asked for. -/
def HandleOk (po : String → Object → Cache → Res SpecType) : Prop :=
  ∀ name obj c r m, CacheOk c → po name obj c = some (r, m) →
    CacheOk m ∧ ∀ st, r = .ok st → st.Name = name

/-- The declaration of an object gives `parseObject` no field list to resolve:
there is no declaration, it is not a type declaration, the type declaration has
no type, its type is not a struct type, or the struct type has a nil field
list. -/
def noFieldList : Decl → Bool
  | .nil => true
  | .Ident => true
  | .StarExpr => true
  | .Other => true
  | .TypeSpec .nil => true
  | .TypeSpec (.StructType none) => true
  | .TypeSpec (.StructType (some _)) => false
  | .TypeSpec _ => true

/-! ## Sample inputs -/

def emptyM : Cache := fun _ => none

/-- A field without tag and comments. -/
def plainField (names : List (Option String)) (tp : Expr) : Field Expr :=
  { Doc := none, Names := names, Typ := tp, Tag := none, Comment := none }

/-- A member of a named field without tag and comments. -/
def plainMember (name tp : String) (expr : TypeExpr) : Member TypeExpr :=
  { Name := name, Typ := tp, Expr := expr, Tag := "", Comments := [], Docs := [],
    IsInline := false }

/-- The declarations `type Zebra struct{}`, `type Apple struct{}`,
`type Mango struct{}`, at the addresses 0, 1 and 2. -/
def zooHeap : Nat → Object := fun a =>
  if a = 0 then { Name := "Zebra", Decl := .TypeSpec (.StructType (some [])) }
  else if a = 1 then { Name := "Apple", Decl := .TypeSpec (.StructType (some [])) }
  else { Name := "Mango", Decl := .TypeSpec (.StructType (some [])) }

/-- The declaration `type Node struct { next *Node }`, at every address. -/
def nodeHeap : Nat → Object := fun _ =>
  { Name := "Node",
    Decl := .TypeSpec (.StructType (some
      [plainField [some "next"] (.StarExpr (.Ident "Node" (some 0)))])) }

/-- The declarations `type Ping struct { peer Pong }` at address 0 and
`type Pong struct { peer Ping }` at the other addresses. -/
def pingPongHeap : Nat → Object := fun a =>
  if a = 0 then
    { Name := "Ping",
      Decl := .TypeSpec (.StructType (some [plainField [some "peer"] (.Ident "Pong" (some 1))])) }
  else
    { Name := "Pong",
      Decl := .TypeSpec (.StructType (some [plainField [some "peer"] (.Ident "Ping" (some 0))])) }

/-- The declarations `type Order struct { Buyer User }` at address 0 and
`type User struct { Name string }` at the other addresses. -/
def shopHeap : Nat → Object := fun a =>
  if a = 0 then
    { Name := "Order",
      Decl := .TypeSpec (.StructType (some [plainField [some "Buyer"] (.Ident "User" (some 1))])) }
  else
    { Name := "User",
      Decl := .TypeSpec (.StructType (some [plainField [some "Name"] (.Ident "string" none)])) }

/-- The field list of `struct { *User; Total int64 }`, with `User` declared in
`shopHeap`: an embedded field and a named one. -/
def embeddedFields : List (Field Expr) :=
  [plainField [] (.StarExpr (.Ident "User" (some 1))),
   plainField [some "Total"] (.Ident "int64" none)]

/-- The field list of `struct { Total int64; *string }`: a named field and an
embedded pointer to a basic type. -/
def embeddedBasicFields : List (Field Expr) :=
  [plainField [some "Total"] (.Ident "int64" none),
   plainField [] (.StarExpr (.Ident "string" none))]

/-- A comment group with a padded comment, a nil comment, a blank comment and
a plain one. -/
def sampleComments : List (Option String) :=
  [some "  // user id \t", none, some " \t ", some "// name"]

/-- A file that declares `type Apple struct{}` at address 0 and
`type Pipe struct { ch chan int }` at the other addresses, visited in this
order. -/
def pipeFile : String → Except String File := fun _ =>
  .ok { heap := fun a =>
          if a = 0 then { Name := "Apple", Decl := .TypeSpec (.StructType (some [])) }
          else { Name := "Pipe",
                 Decl := .TypeSpec (.StructType (some [plainField [some "ch"] .ChanType])) },
        Scope := some [("Apple", 0), ("Pipe", 1)] }

def zooFile : String → Except String File := fun _ =>
  .ok { heap := zooHeap, Scope := some [("Zebra", 0), ("Apple", 1), ("Mango", 2)] }

/-- A file that declares `type Apple struct { core int64 }`. -/
def orchardFile : String → Except String File := fun _ =>
  .ok { heap := fun _ => { Name := "Apple", Decl := .TypeSpec (.StructType (some
          [plainField [some "core"] (.Ident "int64" none)])) },
        Scope := some [("Apple", 0)] }

/-- The content of `objectM` after `parseStructAst` has processed
`orchardFile`, starting from the empty map. -/
def afterOrchard : Cache :=
  match parseStructAst orchardFile 1 "type Apple struct \x7b core int64 \x7d" emptyM with
  | some (_, m) => m
  | none => emptyM

/-- A content of `objectM` with the single entry `Pear`. -/
def pearM : Cache := emptyM.set "Pear" { Name := "Pear", Members := [] }

end ApiParser

namespace Gen

/-! ## The cache keys of `keys.go` -/

/-- Modelled from the spec: `stringx.String.Title` is not among the sources;
the first letter in upper case. -/
def Title (s : String) : String :=
  match s.data with
  | [] => ""
  | c :: cs => String.mk (c.toUpper :: cs)

/-- The pieces of a list of characters between underscores, empty pieces left
out. -/
def splitUnderscore : List Char → List Char → List (List Char)
  | [], [] => []
  | [], cur => [cur.reverse]
  | c :: cs, cur =>
    if c = '_' then
      (if cur = [] then splitUnderscore cs [] else cur.reverse :: splitUnderscore cs [])
    else splitUnderscore cs (c :: cur)

/-- Modelled from the spec: `stringx.String.ToCamel` is not among the sources;
the "camel case" transform of the spec, which capitalises each word between
underscores and joins the words (`user` gives `User`, `user_id` gives
`UserId`). -/
def ToCamel (s : String) : String :=
  String.join ((splitUnderscore s.data []).map (fun w => Title (String.mk w)))

/-- Modelled from the spec: `stringx.String.UnTitle` is not among the sources;
the "lower-first-letter variant" of the spec. -/
def UnTitle (s : String) : String :=
  match s.data with
  | [] => ""
  | c :: cs => String.mk (c.toLower :: cs)

/-- Modelled from the spec: the declaration of `parser.Field` (package
`model/sql/parser`) is not among the sources; these are the fields
`genCacheKeys` reads.  `Name` is the source name, `field.Name.Source()`. -/
structure Field where
  Name : String
  IsKey : Bool

/-- Modelled from the spec: the declaration of `parser.Table` is not among the
sources; these are the fields `genCacheKeys` reads. -/
structure Table where
  Name : String
  Fields : List Field

structure Key where
  VarExpression : String
  Left : String
  Right : String
  Variable : String
  KeyExpression : String
  DataKeyExpression : String
  RespKeyExpression : String

/-- The `Key` that the body of the loop of `genCacheKeys` builds for a key
field; `toCamel` and `unTitle` are the functions of `stringx`, and
`variableName` is the Go variable `variable`. -/
def genKey (toCamel unTitle : String → String) (tableName fieldName : String) : Key :=
  let camelTableName := toCamel tableName
  let lowerStartCamelTableName := unTitle camelTableName
  let camelFieldName := toCamel fieldName
  let lowerStartCamelFieldName := unTitle camelFieldName
  let left := "cache" ++ camelTableName ++ camelFieldName ++ "Prefix"
  let right := "cache#" ++ camelTableName ++ "#" ++ lowerStartCamelFieldName ++ "#"
  let variableName := lowerStartCamelTableName ++ camelFieldName ++ "Key"
  { VarExpression := left ++ " = \"" ++ right ++ "\""
    Left := left
    Right := right
    Variable := variableName
    KeyExpression := variableName ++ " := fmt.Sprintf(\"" ++ "%s" ++ "%v" ++ "\", " ++ left ++ ","
      ++ lowerStartCamelFieldName ++ ")"
    DataKeyExpression := variableName ++ " := fmt.Sprintf(\"" ++ "%s" ++ "%v" ++ "\"," ++ left
      ++ ", data." ++ camelFieldName ++ ")"
    RespKeyExpression := variableName ++ " := fmt.Sprintf(\"" ++ "%s" ++ "%v" ++ "\", " ++ left
      ++ ",resp." ++ camelFieldName ++ ")" }

/-- The function `genCacheKeys`: the map `m` as a function from the source name
of a field, and the error, which is always nil. -/
def genCacheKeys (toCamel unTitle : String → String) (table : Table) :
    Except String (String → Option Key) :=
  .ok (table.Fields.foldl (fun m field =>
    if !field.IsKey then m
    else fun k => if k = field.Name then some (genKey toCamel unTitle table.Name field.Name)
      else m k) (fun _ => none))

/-- The table `user` with the key field `id` and the plain field `name`. -/
def userTable : Table :=
  { Name := "user", Fields := [{ Name := "id", IsKey := true }, { Name := "name", IsKey := false }] }

end Gen

namespace ApiParser

/-! ## Sorting -/

theorem strLess_iff (a b : String) : strLess a b = true ↔ a < b := by
  unfold strLess
  rw [decide_eq_true_iff]
  exact String.lt_iff_toList_lt.symm

theorem sortInsert_mem {α : Type} (less : α → α → Bool) (x z : α) (l : List α) :
    z ∈ sortInsert less x l ↔ z = x ∨ z ∈ l := by
  induction l with
  | nil => simp [sortInsert]
  | cons y ys ih =>
    unfold sortInsert
    split
    · simp only [List.mem_cons, ih]; tauto
    · simp only [List.mem_cons]

theorem sortInsert_sorted {α : Type} (key : α → String) (x : α) (l : List α)
    (h : l.Pairwise (fun a b => key a ≤ key b)) :
    (sortInsert (fun a b => strLess (key a) (key b)) x l).Pairwise
      (fun a b => key a ≤ key b) := by
  induction l with
  | nil => simp [sortInsert]
  | cons y ys ih =>
    rw [List.pairwise_cons] at h
    unfold sortInsert
    split
    · rename_i hlt
      rw [strLess_iff] at hlt
      rw [List.pairwise_cons]
      refine ⟨?_, ih h.2⟩
      intro z hz
      rcases (sortInsert_mem _ x z ys).1 hz with rfl | hz
      · exact le_of_lt hlt
      · exact h.1 z hz
    · rename_i hlt
      rw [strLess_iff, not_lt] at hlt
      rw [List.pairwise_cons, List.pairwise_cons]
      refine ⟨?_, h⟩
      intro z hz
      rcases List.mem_cons.1 hz with rfl | hz
      · exact hlt
      · exact le_trans hlt (h.1 z hz)

theorem sortSlice_sorted {α : Type} (key : α → String) (l : List α) :
    (sortSlice (fun a b => strLess (key a) (key b)) l).Pairwise
      (fun a b => key a ≤ key b) := by
  induction l with
  | nil => simp [sortSlice]
  | cons x xs ih => exact sortInsert_sorted key x _ ih

/-- C1: whenever `parseStructAst` succeeds, the type definitions it returns are
in ascending order of their names: for all indices `i < j` the name at `i` is at
most the name at `j`.  This holds for every parser result, every visiting order
of the scope and every content of `objectM`. -/
theorem parseStructAst_sorted_by_name (parseFile : String → Except String File)
    (fuel : Nat) (golang : String) (objectM : Cache) (res : List SpecType)
    (h : (parseStructAst parseFile fuel golang objectM).map Prod.fst = some (.ok res))
    (i j : Nat) (hij : i < j) (hj : j < res.length) :
    (res.get ⟨i, Nat.lt_trans hij hj⟩).Name ≤ (res.get ⟨j, hj⟩).Name := by
  have hs : res.Pairwise (fun a b => a.Name ≤ b.Name) := by
    unfold parseStructAst at h
    simp only at h
    split at h
    · simp at h
    · split at h
      · simp at h
      · split at h
        · simp at h
        · simp at h
        · simp only [Option.map_some', Option.some.injEq, Except.ok.injEq] at h
          rw [← h]
          exact sortSlice_sorted (fun a : SpecType => a.Name) _
  exact List.pairwise_iff_get.1 hs ⟨i, Nat.lt_trans hij hj⟩ ⟨j, hj⟩ hij

/-- C1, witness: the declarations Zebra, Apple, Mango, visited in this order,
come out as Apple, Mango, Zebra. -/
theorem parseStructAst_sorted_by_name_witness :
    (parseStructAst zooFile 1 "type Zebra struct{}" emptyM).map Prod.fst
      = some (.ok [{ Name := "Apple", Members := [] }, { Name := "Mango", Members := [] },
          { Name := "Zebra", Members := [] }]) ∧
    ("Apple" : String) ≤ "Zebra" :=
  ⟨rfl, parseStructAst_sorted_by_name zooFile 1 "type Zebra struct{}" emptyM
    [{ Name := "Apple", Members := [] }, { Name := "Mango", Members := [] },
      { Name := "Zebra", Members := [] }] rfl 0 2 (by decide) (by decide)⟩


/-! ## Resolution of parser output stays out of `parseObject` -/

theorem parseType_resolved (heap : Nat → Object) :
    ∀ e : Expr, resolvedNames heap e = true →
      ∃ r, ∀ (po : String → Object → Cache → Res SpecType) (c : Cache),
        parseType po heap e c = some (r, c)
  | .nil, _ => ⟨_, fun _ _ => rfl⟩
  | .StarExpr X, h => by
    obtain ⟨r, hr⟩ := parseType_resolved heap X (by simpa [resolvedNames, identsAll] using h)
    rcases r with err | ⟨star, stringExpr⟩
    · exact ⟨_, fun po c => by simp only [parseType, hr]; rfl⟩
    · exact ⟨_, fun po c => by simp only [parseType, hr]; rfl⟩
  | .Ident Name Obj, h => by
    by_cases hb : isBasicType Name = true
    · exact ⟨_, fun po c => by simp only [parseType, hb, if_true]; rfl⟩
    · cases Obj with
      | none => exact ⟨_, fun po c => by simp only [parseType, hb]; rfl⟩
      | some a =>
        have hn : (heap a).Name = Name := by
          simpa [resolvedNames, identsAll] using h
        cases hp : getInlineTypePrefix (heap a).Decl with
        | error err =>
          exact ⟨_, fun po c => by simp [parseType, hb, hn, hp]; rfl⟩
        | ok inlineType =>
          exact ⟨_, fun po c => by simp [parseType, hb, hn, hp]; rfl⟩
  | .MapType Key Value, h => by
    have h2 : resolvedNames heap Key = true ∧ resolvedNames heap Value = true := by
      simpa [resolvedNames, identsAll] using h
    obtain ⟨rk, hk⟩ := parseType_resolved heap Key h2.1
    obtain ⟨rv, hv⟩ := parseType_resolved heap Value h2.2
    rcases rk with err | ⟨key, keyStringExpr⟩
    · exact ⟨_, fun po c => by simp only [parseType, hk]; rfl⟩
    · rcases rv with err | ⟨value, valueStringExpr⟩
      · exact ⟨_, fun po c => by simp only [parseType, hk, hv]; rfl⟩
      · cases key <;> exact ⟨_, fun po c => by simp only [parseType, hk, hv]; rfl⟩
  | .ArrayType Elt, h => by
    obtain ⟨r, hr⟩ := parseType_resolved heap Elt (by simpa [resolvedNames, identsAll] using h)
    rcases r with err | ⟨arrayType, stringExpr⟩
    · exact ⟨_, fun po c => by simp only [parseType, hr]; rfl⟩
    · exact ⟨_, fun po c => by simp only [parseType, hr]; rfl⟩
  | .InterfaceType, _ => ⟨_, fun _ _ => rfl⟩
  | .ChanType, _ => ⟨_, fun _ _ => rfl⟩
  | .FuncType, _ => ⟨_, fun _ _ => rfl⟩
  | .StructType _, _ => ⟨_, fun _ _ => rfl⟩
  | .SelectorExpr x sel, _ => by
    cases x with
    | Ident name obj =>
      by_cases hc : (name ≠ "time" && sel ≠ "Time") = true
      · exact ⟨_, fun po c => by simp only [parseType, hc, if_true]; rfl⟩
      · exact ⟨_, fun po c => by simp only [parseType, hc]; rfl⟩
    | _ => exact ⟨_, fun _ _ => rfl⟩
  | .Other, _ => ⟨_, fun _ _ => rfl⟩


theorem parseFieldsLoop_resolved (heap : Nat → Object) :
    ∀ (fields : List (Field Expr)) (members : List (Member TypeExpr)),
      (∀ f ∈ fields, resolvedNames heap f.Typ = true) →
      ∃ r, ∀ (po : String → Object → Cache → Res SpecType) (c : Cache),
        parseFieldsLoop po heap fields members c = some (r, c)
  | [], members, _ => ⟨_, fun _ _ => rfl⟩
  | field :: rest, members, h => by
    obtain ⟨r, hr⟩ := parseType_resolved heap field.Typ (h field (List.mem_cons_self _ _))
    have hrest : ∀ f ∈ rest, resolvedNames heap f.Typ = true :=
      fun f hf => h f (List.mem_cons_of_mem _ hf)
    rcases r with err | ⟨tp, stringExpr⟩
    · exact ⟨_, fun po c => by simp only [parseFieldsLoop, hr]; rfl⟩
    · by_cases hn : parseName field.Names = ""
      · cases hi : getInlineName tp with
        | error err =>
          exact ⟨_, fun po c => by simp only [parseFieldsLoop, hr, hn, hi, decide_True, if_true]; rfl⟩
        | ok name =>
          obtain ⟨r2, hr2⟩ := parseFieldsLoop_resolved heap rest
            (members ++ [{
              Name := name, Typ := stringExpr, Expr := tp,
              Tag := parseTag field.Tag, Comments := parseCommentOrDoc field.Comment,
              Docs := parseCommentOrDoc field.Doc, IsInline := true }]) hrest
          exact ⟨r2, fun po c => by
            simp only [parseFieldsLoop, hr, hn, hi, decide_True, if_true]; exact hr2 po c⟩
      · obtain ⟨r2, hr2⟩ := parseFieldsLoop_resolved heap rest
          (members ++ [{
            Name := parseName field.Names, Typ := stringExpr, Expr := tp,
            Tag := parseTag field.Tag, Comments := parseCommentOrDoc field.Comment,
            Docs := parseCommentOrDoc field.Doc, IsInline := false }]) hrest
        exact ⟨r2, fun po c => by
          simp only [parseFieldsLoop, hr, hn, decide_False]; exact hr2 po c⟩

theorem parseObject_resolved (heap : Nat → Object) (structName : String) (obj : Object)
    (objectM : Cache) (h : ∀ f ∈ fieldsOf obj, resolvedNames heap f.Typ = true) :
    ∃ r m, ∀ fuel, parseObject heap (fuel + 1) structName obj objectM = some (r, m) := by
  cases hc : objectM structName with
  | some data => exact ⟨_, _, fun fuel => by simp only [parseObject, hc]; rfl⟩
  | none =>
    obtain ⟨r, hr⟩ := parseFieldsLoop_resolved heap (fieldsOf obj) [] h
    rcases obj with ⟨name, decl⟩
    cases decl with
    | TypeSpec tp =>
      cases tp with
      | StructType fields =>
        cases fields with
        | some fieldList =>
          simp only [fieldsOf] at hr
          rcases r with err | members
          · exact ⟨_, _, fun fuel => by simp only [parseObject, hc, parseFields, hr]; rfl⟩
          · exact ⟨_, _, fun fuel => by simp only [parseObject, hc, parseFields, hr]; rfl⟩
        | none => exact ⟨_, _, fun fuel => by simp only [parseObject, hc]; rfl⟩
      | _ => exact ⟨_, _, fun fuel => by simp only [parseObject, hc]; rfl⟩
    | _ => exact ⟨_, _, fun fuel => by simp only [parseObject, hc]; rfl⟩

theorem parseObjects_resolved (heap : Nat → Object) :
    ∀ (objects : List (String × Nat)) (structs : List SpecType) (objectM : Cache),
      (∀ p ∈ objects, ∀ f ∈ fieldsOf (heap p.2), resolvedNames heap f.Typ = true) →
      ∃ r m, ∀ fuel, parseObjects heap (fuel + 1) objects structs objectM = some (r, m)
  | [], structs, objectM, _ => ⟨_, _, fun _ => rfl⟩
  | (structName, obj) :: rest, structs, objectM, h => by
    obtain ⟨r, m, hr⟩ := parseObject_resolved heap structName (heap obj) objectM
      (h (structName, obj) (List.mem_cons_self _ _))
    rcases r with err | st
    · exact ⟨_, _, fun fuel => by simp only [parseObjects, hr]; rfl⟩
    · obtain ⟨r2, m2, hr2⟩ := parseObjects_resolved heap rest (structs ++ [st]) m
        (fun p hp => h p (List.mem_cons_of_mem _ hp))
      exact ⟨r2, m2, fun fuel => by simp only [parseObjects, hr]; exact hr2 fuel⟩

/-- C2: for every finite set of declarations as `go/parser` resolves them (each
identifier that points to an object carries that object's name), and every
content of `objectM`, resolving a declaration terminates, and so does the loop
over the whole scope: a result is returned with recursion budget 1, which leaves
no room for a call of `parseObject` from inside `parseObject`, and it is the
same with every larger budget.  Declarations whose fields refer to themselves
or to each other, with or without a pointer, are included. -/
theorem parseObject_terminates_on_resolved_declarations (heap : Nat → Object)
    (objects : List (String × Nat)) (objectM : Cache)
    (h : ∀ p ∈ objects, ∀ f ∈ fieldsOf (heap p.2), resolvedNames heap f.Typ = true) :
    (∀ p ∈ objects, ∀ c : Cache, ∃ r m, ∀ fuel,
      parseObject heap (fuel + 1) p.1 (heap p.2) c = some (r, m)) ∧
    (∃ r m, ∀ fuel, parseObjects heap (fuel + 1) objects [] objectM = some (r, m)) :=
  ⟨fun p hp c => parseObject_resolved heap p.1 (heap p.2) c (h p hp),
    parseObjects_resolved heap objects [] objectM h⟩

/-- C2, witness: `Node` with the field `next *Node` resolves to one member, a
pointer to the placeholder `Node`; `Ping` and `Pong`, which refer to each other
without a pointer, resolve as well. -/
theorem parseObject_terminates_on_resolved_declarations_witness :
    ((parseObject nodeHeap 1 "Node" (nodeHeap 0) emptyM).map Prod.fst
      = some (.ok { Name := "Node", Members := [plainMember "next" "*Node"
          (.PointerType (.StructType "Node") "*Node")] })) ∧
    ((parseObjects pingPongHeap 1 [("Ping", 0), ("Pong", 1)] [] emptyM).map Prod.fst
      = some (.ok [{ Name := "Ping", Members := [plainMember "peer" "Pong" (.StructType "Pong")] },
          { Name := "Pong", Members := [plainMember "peer" "Ping" (.StructType "Ping")] }])) ∧
    ((∀ p ∈ [("Node", 0)], ∀ c : Cache, ∃ r m, ∀ fuel,
      parseObject nodeHeap (fuel + 1) p.1 (nodeHeap p.2) c = some (r, m)) ∧
    (∃ r m, ∀ fuel, parseObjects nodeHeap (fuel + 1) [("Node", 0)] [] emptyM = some (r, m))) :=
  ⟨rfl, rfl, parseObject_terminates_on_resolved_declarations nodeHeap [("Node", 0)] emptyM
    (by intro p _ f hf
        simp only [fieldsOf, nodeHeap, List.mem_singleton] at hf
        subst hf
        rfl)⟩


/-! ## Identifiers -/

/-- C3, the code at the failing input: while `Order` is resolved, its field
`Buyer User` refers to the declaration `User`, which is not the one being
resolved; `parseType` returns the placeholder `User` without members, whatever
the recursion budget and the content of `objectM`, and the member of `Order`
carries that placeholder, whereas `User` resolved in full has the member
`Name string`. -/
theorem parseType_other_declaration_gives_placeholder :
    (∀ (fuel : Nat) (c : Cache),
      parseType (parseObject shopHeap fuel) shopHeap (.Ident "User" (some 1)) c
        = some (.ok (.StructType "User", "User"), c)) ∧
    (parseObject shopHeap 1 "Order" (shopHeap 0) emptyM).map Prod.fst
      = some (.ok ⟨"Order", [plainMember "Buyer" "User" (.StructType "User")]⟩) ∧
    (parseObject shopHeap 1 "User" (shopHeap 1) emptyM).map Prod.fst
      = some (.ok ⟨"User", [plainMember "Name" "string" (.BasicType "string" "string")]⟩) :=
  ⟨fun _ _ => rfl, rfl, rfl⟩

/-! ## Qualified references -/

/-- C4, the code at the failing inputs: `time.Duration` and `foo.Time` are not
rejected; each is returned as the time type with the string form `time.Time`.
Only a reference whose package is not `time` and whose selector is not `Time`
fails. -/
theorem parseType_selector_accepts_non_time (po : String → Object → Cache → Res SpecType)
    (heap : Nat → Object) (c : Cache) (obj : Option Nat) :
    parseType po heap (.SelectorExpr (.Ident "time" obj) "Duration") c
      = some (.ok (.TimeType "time.Time", "time.Time"), c) ∧
    parseType po heap (.SelectorExpr (.Ident "foo" obj) "Time") c
      = some (.ok (.TimeType "time.Time", "time.Time"), c) ∧
    parseType po heap (.SelectorExpr (.Ident "foo" obj) "Duration") c
      = some (.error (.outterPackage "foo"), c) :=
  ⟨rfl, rfl, rfl⟩

/-! ## Maps -/

theorem parseType_basic_inv (po : String → Object → Cache → Res SpecType)
    (heap : Nat → Object) (e : Expr) (c m : Cache) (k se ks : String)
    (h : parseType po heap e c = some (.ok (.BasicType k se, ks), m)) :
    ks = k ∧ se = k ∧ m = c ∧ isBasicType k = true := by
  cases e with
  | Ident Name Obj =>
    unfold parseType at h
    split at h
    · rename_i hb
      simp only [Option.some.injEq, Prod.mk.injEq, Except.ok.injEq, TypeExpr.BasicType.injEq] at h
      obtain ⟨⟨⟨rfl, rfl⟩, rfl⟩, rfl⟩ := h
      exact ⟨rfl, rfl, rfl, hb⟩
    · split at h
      · simp only at h
        split at h
        · split at h <;> simp at h
        · split at h <;> simp at h
      · simp at h
  | StarExpr X =>
    unfold parseType at h
    split at h <;> simp at h
  | MapType Key Value =>
    unfold parseType at h
    split at h
    · simp at h
    · simp at h
    · split at h
      · simp at h
      · simp at h
      · split at h <;> simp at h
  | ArrayType Elt =>
    unfold parseType at h
    split at h <;> simp at h
  | SelectorExpr x sel =>
    unfold parseType at h
    split at h
    · split at h <;> simp at h
    · simp at h
  | _ => simp [parseType] at h


/-- C5: for every map expression `map[K]V`, a successful result of `parseType`
only comes about when `K` resolves to a basic type, and when `K` resolves to
the basic type `k` and `V` resolves to `v` with string form `vs`, the result is
the map type with key `k` and value `v`, whose string form is
`"map[" ++ k ++ "]" ++ vs`. -/
theorem parseType_map_key_and_form (po : String → Object → Cache → Res SpecType) (heap : Nat → Object)
    (K V : Expr) (c : Cache) :
    (∀ r m, parseType po heap (.MapType K V) c = some (.ok r, m) →
      ∃ k, parseType po heap K c = some (.ok (.BasicType k k, k), c)) ∧
    (∀ k se ks c1 v vs m, parseType po heap K c = some (.ok (.BasicType k se, ks), c1) →
      parseType po heap V c1 = some (.ok (v, vs), m) →
      parseType po heap (.MapType K V) c
        = some (.ok (.MapType k v ("map[" ++ k ++ "]" ++ vs), "map[" ++ k ++ "]" ++ vs), m)) := by
  constructor
  · intro r m h
    unfold parseType at h
    split at h
    · simp at h
    · simp at h
    · rename_i key keyStringExpr c1 hk
      split at h
      · simp at h
      · simp at h
      · split at h
        · rename_i keyName se
          obtain ⟨rfl, rfl, rfl, _⟩ := parseType_basic_inv po heap K c c1 _ _ _ hk
          exact ⟨_, hk⟩
        · simp at h
  · intro k se ks c1 v vs m hk hv
    obtain ⟨rfl, rfl, rfl, _⟩ := parseType_basic_inv po heap K c c1 _ _ _ hk
    simp only [parseType, hk, hv]

/-- C5, witness: `map[string]int64` gives the map type with key `string` and
value the basic type `int64`, string form `map[string]int64`; a map keyed by
the struct type `Node` fails. -/
theorem parseType_map_key_and_form_witness :
    parseType noObject nodeHeap
        (.MapType (.Ident "string" none) (.Ident "int64" none)) emptyM
      = some (.ok (.MapType "string" (.BasicType "int64" "int64") "map[string]int64",
          "map[string]int64"), emptyM) ∧
    (parseType noObject nodeHeap
        (.MapType (.Ident "Node" (some 0)) (.Ident "int64" none)) emptyM).map Prod.fst
      = some (.error (.mapKeyUnsupport (.Ident "Node" (some 0)))) :=
  ⟨(parseType_map_key_and_form noObject nodeHeap (.Ident "string" none) (.Ident "int64" none) emptyM).2
    "string" "string" "string" emptyM (.BasicType "int64" "int64") "int64" emptyM rfl rfl, rfl⟩

/-! ## Pointers and sequences -/

theorem replicate_star_succ (n : Nat) (s : String) :
    "*" ++ (String.mk (List.replicate n '*') ++ s) = String.mk (List.replicate (n + 1) '*') ++ s := by
  apply String.ext
  simp [List.replicate_succ]

theorem parseType_stars (po : String → Object → Cache → Res SpecType) (heap : Nat → Object)
    (e : Expr) (c m : Cache) (t : TypeExpr) (s : String)
    (h : parseType po heap e c = some (.ok (t, s), m)) (n : Nat) :
    parseType po heap (stars n e) c
      = some (.ok (pointers n t s, String.mk (List.replicate n '*') ++ s), m) := by
  induction n with
  | zero =>
    have hs : String.mk (List.replicate 0 '*') ++ s = s := by
      apply String.ext; simp
    rw [hs]; exact h
  | succ n ih =>
    simp only [stars, parseType, ih, pointers, replicate_star_succ]

/-- C10: when `parseType` resolves `e` to the type `t` with string form `s`, it
resolves the pointer to `e` to the pointer type with target `t` and string form
`"*" ++ s`, and the sequence of `e` to the array type with element `t` and
string form `"[]" ++ s`; and `e` under `n` pointer markers resolves to `t`
behind `n` pointers, with a string form of `n` characters `*` followed by `s`,
for every `n`. -/
theorem parseType_pointer_and_sequence (po : String → Object → Cache → Res SpecType)
    (heap : Nat → Object) (e : Expr) (c m : Cache) (t : TypeExpr) (s : String)
    (h : parseType po heap e c = some (.ok (t, s), m)) :
    parseType po heap (.StarExpr e) c = some (.ok (.PointerType t ("*" ++ s), "*" ++ s), m) ∧
    parseType po heap (.ArrayType e) c = some (.ok (.ArrayType t ("[]" ++ s), "[]" ++ s), m) ∧
    ∀ n : Nat, parseType po heap (stars n e) c
      = some (.ok (pointers n t s, String.mk (List.replicate n '*') ++ s), m) :=
  ⟨by simp only [parseType, h], by simp only [parseType, h], parseType_stars po heap e c m t s h⟩

/-- C10, witness: three pointer markers around `Node` give the string form
`***Node`, and the sequence of `int64` gives `[]int64`. -/
theorem parseType_pointer_and_sequence_witness :
    parseType noObject nodeHeap (.StarExpr (.StarExpr (.StarExpr (.Ident "Node" (some 0))))) emptyM
      = some (.ok (.PointerType (.PointerType (.PointerType (.StructType "Node") "*Node")
          "**Node") "***Node", "***Node"), emptyM) ∧
    parseType noObject nodeHeap (.ArrayType (.Ident "int64" none)) emptyM
      = some (.ok (.ArrayType (.BasicType "int64" "int64") "[]int64", "[]int64"), emptyM) :=
  ⟨(parseType_pointer_and_sequence noObject nodeHeap (.Ident "Node" (some 0)) emptyM emptyM
      (.StructType "Node") "Node" rfl).2.2 3,
    (parseType_pointer_and_sequence noObject nodeHeap (.Ident "int64" none) emptyM emptyM
      (.BasicType "int64" "int64") "int64" rfl).2.1⟩

end ApiParser

namespace ApiParser

/-! ## The map `objectM` across invocations -/

theorem parseObject_agree (heap : Nat → Object) (fuel : Nat) (structName : String)
    (obj : Object) (c1 c2 : Cache)
    (h : ∀ f ∈ fieldsOf obj, resolvedNames heap f.Typ = true)
    (hc : c1 structName = c2 structName) :
    ∃ r m1 m2, parseObject heap (fuel + 1) structName obj c1 = some (r, m1) ∧
      parseObject heap (fuel + 1) structName obj c2 = some (r, m2) ∧
      ∀ k, c1 k = c2 k → m1 k = m2 k := by
  cases h1 : c1 structName with
  | some data =>
    have h2 : c2 structName = some data := by rw [← hc, h1]
    exact ⟨_, _, _, by simp only [parseObject, h1]; rfl, by simp only [parseObject, h2],
      fun k hk => hk⟩
  | none =>
    have h2 : c2 structName = none := by rw [← hc, h1]
    obtain ⟨r, hr⟩ := parseFieldsLoop_resolved heap (fieldsOf obj) [] h
    have hset : ∀ (st : SpecType) (k : String), c1 k = c2 k →
        c1.set structName st k = c2.set structName st k := by
      intro st k hk
      simp only [Cache.set, hk]
    rcases obj with ⟨name, decl⟩
    cases decl with
    | TypeSpec tp =>
      cases tp with
      | StructType fields =>
        cases fields with
        | some fieldList =>
          simp only [fieldsOf] at hr
          rcases r with err | members
          · exact ⟨_, _, _, by simp only [parseObject, h1, parseFields, hr]; rfl,
              by simp only [parseObject, h2, parseFields, hr], fun k hk => hk⟩
          · exact ⟨_, _, _, by simp only [parseObject, h1, parseFields, hr]; rfl,
              by simp only [parseObject, h2, parseFields, hr], hset _⟩
        | none => exact ⟨_, _, _, by simp only [parseObject, h1]; rfl,
            by simp only [parseObject, h2], hset _⟩
      | _ => exact ⟨_, _, _, by simp only [parseObject, h1]; rfl,
          by simp only [parseObject, h2], hset _⟩
    | _ => exact ⟨_, _, _, by simp only [parseObject, h1]; rfl,
        by simp only [parseObject, h2], hset _⟩

theorem parseObjects_agree (heap : Nat → Object) (fuel : Nat) :
    ∀ (objects : List (String × Nat)) (structs : List SpecType) (c1 c2 : Cache),
      (∀ p ∈ objects, ∀ f ∈ fieldsOf (heap p.2), resolvedNames heap f.Typ = true) →
      (∀ p ∈ objects, c1 p.1 = c2 p.1) →
      (parseObjects heap (fuel + 1) objects structs c1).map Prod.fst
        = (parseObjects heap (fuel + 1) objects structs c2).map Prod.fst
  | [], structs, c1, c2, _, _ => rfl
  | (structName, obj) :: rest, structs, c1, c2, h, hc => by
    obtain ⟨r, m1, m2, e1, e2, hm⟩ := parseObject_agree heap fuel structName (heap obj) c1 c2
      (h (structName, obj) (List.mem_cons_self _ _)) (hc (structName, obj) (List.mem_cons_self _ _))
    rcases r with err | st
    · simp only [parseObjects, e1, e2, Option.map_some']
    · simp only [parseObjects, e1, e2]
      exact parseObjects_agree heap fuel rest (structs ++ [st]) m1 m2
        (fun p hp => h p (List.mem_cons_of_mem _ hp))
        (fun p hp => hm p.1 (hc p (List.mem_cons_of_mem _ hp)))

/-- C7, as the code has it: `objectM` is a variable of the package and
`parseObject` answers from it.  For a file as `go/parser` resolves it and two
contents of `objectM` that agree on every declaration name of the scope (two
contents without an entry for any of them, for one), `parseStructAst` returns
the same result. -/
theorem parseStructAst_same_model_when_caches_agree
    (parseFile : String → Except String File) (fuel : Nat) (golang : String) (c1 c2 : Cache)
    (h : ∀ src f objects, parseFile src = .ok f → f.Scope = some objects →
      ∀ p ∈ objects, (∀ fld ∈ fieldsOf (f.heap p.2), resolvedNames f.heap fld.Typ = true) ∧
        c1 p.1 = c2 p.1) :
    (parseStructAst parseFile fuel golang c1).map Prod.fst
      = (parseStructAst parseFile fuel golang c2).map Prod.fst := by
  unfold parseStructAst
  simp only
  cases hp : parseFile (if (!HasPrefix golang pkgPrefix) = true then golangF golang else golang) with
  | error err => rfl
  | ok f =>
    simp only
    cases hs : f.Scope with
    | none => rfl
    | some objects =>
      simp only
      have hh := h _ f objects hp hs
      cases fuel with
      | zero =>
        cases objects with
        | nil => rfl
        | cons p rest =>
          obtain ⟨structName, obj⟩ := p
          simp only [parseObjects, parseObject]
      | succ fuel =>
        have key := parseObjects_agree f.heap fuel objects [] c1 c2
          (fun p hp => (hh p hp).1) (fun p hp => (hh p hp).2)
        cases e1 : parseObjects f.heap (fuel + 1) objects [] c1 with
        | none =>
          cases e2 : parseObjects f.heap (fuel + 1) objects [] c2 with
          | none => rfl
          | some r2 => rw [e1, e2] at key; simp at key
        | some r1 =>
          cases e2 : parseObjects f.heap (fuel + 1) objects [] c2 with
          | none => rw [e1, e2] at key; simp at key
          | some r2 =>
            rw [e1, e2] at key
            simp only [Option.map_some', Option.some.injEq] at key
            obtain ⟨a1, m1⟩ := r1
            obtain ⟨a2, m2⟩ := r2
            simp only at key
            subst key
            cases a1 <;> rfl

/-- C7, witness: the zoo built from the empty map and from a map whose only
entry is `Pear`. -/
theorem parseStructAst_same_model_when_caches_agree_witness :
    (parseStructAst zooFile 1 "type Zebra struct\x7b\x7d" emptyM).map Prod.fst
      = (parseStructAst zooFile 1 "type Zebra struct\x7b\x7d" pearM).map Prod.fst :=
  parseStructAst_same_model_when_caches_agree zooFile 1 "type Zebra struct\x7b\x7d" emptyM pearM
    (by
      intro src f objects hf hs p hp
      simp only [zooFile, Except.ok.injEq] at hf
      subst hf
      simp only [Option.some.injEq] at hs
      subst hs
      simp only [List.mem_cons, List.mem_singleton, List.not_mem_nil, or_false] at hp
      rcases hp with rfl | rfl | rfl <;> exact ⟨by intro fld hfld; simp [fieldsOf, zooHeap] at hfld, rfl⟩)

/-- C7, counterexample: the zoo declares `Apple` without fields.  Built from
the empty map, `Apple` has no members; built from the map that an earlier
build of `type Apple struct { core int64 }` left behind, `Apple` comes back with
the member `core` of that earlier build.  The two models differ. -/
theorem parseStructAst_depends_on_earlier_build :
    (parseStructAst zooFile 1 "type Zebra struct\x7b\x7d" emptyM).map Prod.fst
      ≠ (parseStructAst zooFile 1 "type Zebra struct\x7b\x7d" afterOrchard).map Prod.fst := by
  have h1 : (parseStructAst zooFile 1 "type Zebra struct\x7b\x7d" emptyM).map Prod.fst
      = some (.ok [⟨"Apple", []⟩, ⟨"Mango", []⟩, ⟨"Zebra", []⟩]) := rfl
  have h2 : (parseStructAst zooFile 1 "type Zebra struct\x7b\x7d" afterOrchard).map Prod.fst
      = some (.ok [⟨"Apple", [plainMember "core" "int64" (.BasicType "int64" "int64")]⟩,
          ⟨"Mango", []⟩, ⟨"Zebra", []⟩]) := rfl
  rw [h1, h2]
  intro h
  simp at h

end ApiParser

namespace ApiParser

/-! ## Inversion of `parseType` -/

theorem parseType_star_inv (po : String → Object → Cache → Res SpecType) (heap : Nat → Object)
    (X : Expr) (c m : Cache) (tp : TypeExpr) (s : String)
    (h : parseType po heap (.StarExpr X) c = some (.ok (tp, s), m)) :
    ∃ t1 s1, parseType po heap X c = some (.ok (t1, s1), m) ∧
      tp = .PointerType t1 ("*" ++ s1) ∧ s = "*" ++ s1 := by
  unfold parseType at h
  split at h
  · simp at h
  · simp at h
  · rename_i star stringExpr m1 hx
    simp only [Option.some.injEq, Prod.mk.injEq, Except.ok.injEq] at h
    obtain ⟨⟨rfl, rfl⟩, rfl⟩ := h
    exact ⟨_, _, hx, rfl, rfl⟩

theorem parseType_array_inv (po : String → Object → Cache → Res SpecType) (heap : Nat → Object)
    (Elt : Expr) (c m : Cache) (tp : TypeExpr) (s : String)
    (h : parseType po heap (.ArrayType Elt) c = some (.ok (tp, s), m)) :
    ∃ t1 s1, parseType po heap Elt c = some (.ok (t1, s1), m) ∧
      tp = .ArrayType t1 ("[]" ++ s1) ∧ s = "[]" ++ s1 := by
  unfold parseType at h
  split at h
  · simp at h
  · simp at h
  · rename_i arrayType stringExpr m1 hx
    simp only [Option.some.injEq, Prod.mk.injEq, Except.ok.injEq] at h
    obtain ⟨⟨rfl, rfl⟩, rfl⟩ := h
    exact ⟨_, _, hx, rfl, rfl⟩

theorem parseType_map_inv (po : String → Object → Cache → Res SpecType) (heap : Nat → Object)
    (K V : Expr) (c m : Cache) (tp : TypeExpr) (s : String)
    (h : parseType po heap (.MapType K V) c = some (.ok (tp, s), m)) :
    ∃ k v vs, parseType po heap K c = some (.ok (.BasicType k k, k), c) ∧
      parseType po heap V c = some (.ok (v, vs), m) ∧
      tp = .MapType k v ("map[" ++ k ++ "]" ++ vs) ∧ s = "map[" ++ k ++ "]" ++ vs := by
  unfold parseType at h
  split at h
  · simp at h
  · simp at h
  · rename_i key keyStringExpr c1 hk
    split at h
    · simp at h
    · simp at h
    · rename_i value valueStringExpr m1 hv
      split at h
      · rename_i keyName se
        obtain ⟨rfl, rfl, rfl, _⟩ := parseType_basic_inv po heap K c c1 _ _ _ hk
        simp only [Option.some.injEq, Prod.mk.injEq, Except.ok.injEq] at h
        obtain ⟨⟨rfl, rfl⟩, rfl⟩ := h
        exact ⟨_, _, _, hk, hv, rfl, rfl⟩
      · simp at h

theorem parseType_ident_inv (po : String → Object → Cache → Res SpecType) (heap : Nat → Object)
    (Name : String) (Obj : Option Nat) (c m : Cache) (tp : TypeExpr) (s : String)
    (hn : resolvedNames heap (.Ident Name Obj) = true)
    (hd : declKinds heap (.Ident Name Obj) = true)
    (h : parseType po heap (.Ident Name Obj) c = some (.ok (tp, s), m)) :
    s = Name ∧ (tp = .BasicType Name Name ∨ tp = .StructType Name) := by
  unfold parseType at h
  split at h
  · simp only [Option.some.injEq, Prod.mk.injEq, Except.ok.injEq] at h
    obtain ⟨⟨rfl, rfl⟩, rfl⟩ := h
    exact ⟨rfl, Or.inl rfl⟩
  · cases Obj with
    | none => simp at h
    | some a =>
      have hname : (heap a).Name = Name := by
        simpa [resolvedNames, identsAll] using hn
      simp only [hname, ne_eq, not_true_eq_false, if_false] at h
      cases hdecl : (heap a).Decl <;>
        simp [declKinds, identsAll, hdecl] at hd <;>
        simp [hdecl, getInlineTypePrefix] at h <;>
        (obtain ⟨⟨rfl, rfl⟩, rfl⟩ := h; exact ⟨rfl, Or.inr rfl⟩)

/-! ## String forms -/

/-- On parser output, the string form that `parseType` returns is the string
expression of the returned value and its canonical rendering. -/
theorem parseType_render (po : String → Object → Cache → Res SpecType) (heap : Nat → Object) :
    ∀ (e : Expr) (c m : Cache) (tp : TypeExpr) (s : String),
      resolvedNames heap e = true → declKinds heap e = true →
      parseType po heap e c = some (.ok (tp, s), m) →
      s = stringExprOf tp ∧ s = render tp
  | .nil, c, m, tp, s, _, _, h => by simp [parseType] at h
  | .StarExpr X, c, m, tp, s, hn, hd, h => by
    obtain ⟨t1, s1, hx, rfl, rfl⟩ := parseType_star_inv po heap X c m tp s h
    have ih := parseType_render po heap X c m t1 s1
      (by simpa [resolvedNames, identsAll] using hn) (by simpa [declKinds, identsAll] using hd) hx
    exact ⟨rfl, by simp only [render, ← ih.2]⟩
  | .Ident Name Obj, c, m, tp, s, hn, hd, h => by
    obtain ⟨rfl, rfl | rfl⟩ := parseType_ident_inv po heap Name Obj c m tp s hn hd h
    · exact ⟨rfl, rfl⟩
    · exact ⟨rfl, rfl⟩
  | .MapType K V, c, m, tp, s, hn, hd, h => by
    obtain ⟨k, v, vs, _, hv, rfl, rfl⟩ := parseType_map_inv po heap K V c m tp s h
    have hn2 : resolvedNames heap K = true ∧ resolvedNames heap V = true := by
      simpa [resolvedNames, identsAll] using hn
    have hd2 : declKinds heap K = true ∧ declKinds heap V = true := by
      simpa [declKinds, identsAll] using hd
    have ih := parseType_render po heap V c m v vs hn2.2 hd2.2 hv
    exact ⟨rfl, by simp only [render, ← ih.2]⟩
  | .ArrayType Elt, c, m, tp, s, hn, hd, h => by
    obtain ⟨t1, s1, hx, rfl, rfl⟩ := parseType_array_inv po heap Elt c m tp s h
    have ih := parseType_render po heap Elt c m t1 s1
      (by simpa [resolvedNames, identsAll] using hn) (by simpa [declKinds, identsAll] using hd) hx
    exact ⟨rfl, by simp only [render, ← ih.2]⟩
  | .InterfaceType, c, m, tp, s, _, _, h => by
    simp only [parseType, Option.some.injEq, Prod.mk.injEq, Except.ok.injEq] at h
    obtain ⟨⟨rfl, rfl⟩, rfl⟩ := h
    exact ⟨rfl, rfl⟩
  | .ChanType, c, m, tp, s, _, _, h => by simp [parseType] at h
  | .FuncType, c, m, tp, s, _, _, h => by simp [parseType] at h
  | .StructType _, c, m, tp, s, _, _, h => by simp [parseType] at h
  | .SelectorExpr x sel, c, m, tp, s, _, _, h => by
    unfold parseType at h
    split at h
    · split at h
      · simp at h
      · simp only [Option.some.injEq, Prod.mk.injEq, Except.ok.injEq] at h
        obtain ⟨⟨rfl, rfl⟩, rfl⟩ := h
        exact ⟨rfl, rfl⟩
    · simp at h
  | .Other, c, m, tp, s, _, _, h => by simp [parseType] at h

/-- On parser output, the name that `getInlineName` derives from the resolved
type of a field is the base name of the field's type expression. -/
theorem parseType_inline_name (po : String → Object → Cache → Res SpecType)
    (heap : Nat → Object) :
    ∀ (e : Expr) (c m : Cache) (tp : TypeExpr) (s name : String),
      resolvedNames heap e = true → declKinds heap e = true →
      parseType po heap e c = some (.ok (tp, s), m) →
      getInlineName tp = .ok name → baseName e = some name
  | .nil, c, m, tp, s, name, _, _, h, _ => by simp [parseType] at h
  | .StarExpr X, c, m, tp, s, name, hn, hd, h, hi => by
    obtain ⟨t1, s1, hx, rfl, rfl⟩ := parseType_star_inv po heap X c m tp s h
    exact parseType_inline_name po heap X c m t1 s1 name
      (by simpa [resolvedNames, identsAll] using hn) (by simpa [declKinds, identsAll] using hd) hx
      (by simpa [getInlineName] using hi)
  | .Ident Name Obj, c, m, tp, s, name, hn, hd, h, hi => by
    obtain ⟨rfl, rfl | rfl⟩ := parseType_ident_inv po heap Name Obj c m tp s hn hd h
    · simp [getInlineName] at hi
    · simp only [getInlineName, Except.ok.injEq] at hi
      simp only [baseName, hi]
  | .MapType K V, c, m, tp, s, name, _, _, h, hi => by
    obtain ⟨k, v, vs, _, _, rfl, rfl⟩ := parseType_map_inv po heap K V c m tp s h
    simp [getInlineName] at hi
  | .ArrayType Elt, c, m, tp, s, name, _, _, h, hi => by
    obtain ⟨t1, s1, _, rfl, rfl⟩ := parseType_array_inv po heap Elt c m tp s h
    simp [getInlineName] at hi
  | .InterfaceType, c, m, tp, s, name, _, _, h, hi => by
    simp only [parseType, Option.some.injEq, Prod.mk.injEq, Except.ok.injEq] at h
    obtain ⟨⟨rfl, rfl⟩, rfl⟩ := h
    simp [getInlineName] at hi
  | .ChanType, c, m, tp, s, name, _, _, h, _ => by simp [parseType] at h
  | .FuncType, c, m, tp, s, name, _, _, h, _ => by simp [parseType] at h
  | .StructType _, c, m, tp, s, name, _, _, h, _ => by simp [parseType] at h
  | .SelectorExpr x sel, c, m, tp, s, name, _, _, h, hi => by
    unfold parseType at h
    split at h
    · split at h
      · simp at h
      · simp only [Option.some.injEq, Prod.mk.injEq, Except.ok.injEq] at h
        obtain ⟨⟨rfl, rfl⟩, rfl⟩ := h
        simp [getInlineName] at hi
    · simp at h
  | .Other, c, m, tp, s, name, _, _, h, _ => by simp [parseType] at h

end ApiParser

namespace ApiParser

/-! ## Members -/

theorem forall₂_of_mem {α β : Type} {R S : α → β → Prop} :
    ∀ {l1 : List α} {l2 : List β}, List.Forall₂ R l1 l2 →
      (∀ a ∈ l1, ∀ b, R a b → S a b) → List.Forall₂ S l1 l2
  | _, _, .nil, _ => .nil
  | _, _, .cons hab hrest, himp =>
    .cons (himp _ (List.mem_cons_self _ _) _ hab)
      (forall₂_of_mem hrest (fun a ha b hr => himp a (List.mem_cons_of_mem _ ha) b hr))

/-- What the loop of `parseFields` appends for each field when it succeeds: the
resolved type of the field with its string form, the inline flag, and the name,
derived by `getInlineName` when the name read from the field is empty. -/
theorem parseFieldsLoop_ok (po : String → Object → Cache → Res SpecType) (heap : Nat → Object) :
    ∀ (fields : List (Field Expr)) (acc : List (Member TypeExpr)) (c m : Cache)
      (members : List (Member TypeExpr)),
      parseFieldsLoop po heap fields acc c = some (.ok members, m) →
      ∃ new, members = acc ++ new ∧
        List.Forall₂ (fun f mem =>
          (∃ c1 c2, parseType po heap f.Typ c1 = some (.ok (mem.Expr, mem.Typ), c2)) ∧
          mem.IsInline = decide (parseName f.Names = "") ∧
          (parseName f.Names = "" → getInlineName mem.Expr = .ok mem.Name) ∧
          (parseName f.Names ≠ "" → mem.Name = parseName f.Names)) fields new
  | [], acc, c, m, members, h => by
    simp only [parseFieldsLoop, Option.some.injEq, Prod.mk.injEq, Except.ok.injEq] at h
    exact ⟨[], by simp [h.1], .nil⟩
  | field :: rest, acc, c, m, members, h => by
    unfold parseFieldsLoop at h
    simp only at h
    split at h
    · simp at h
    · simp at h
    · rename_i tp stringExpr m1 ht
      by_cases hn : parseName field.Names = ""
      · simp only [hn, decide_True, if_true] at h
        split at h
        · simp at h
        · rename_i name hi
          obtain ⟨new, hnew, hall⟩ := parseFieldsLoop_ok po heap rest _ m1 m members h
          refine ⟨_ :: new, by rw [hnew, List.append_assoc]; rfl, .cons ?_ hall⟩
          exact ⟨⟨c, m1, ht⟩, by simp [hn], fun _ => hi, fun hne => absurd hn hne⟩
      · simp only [hn, decide_False, Bool.false_eq_true, if_false] at h
        obtain ⟨new, hnew, hall⟩ := parseFieldsLoop_ok po heap rest _ m1 m members h
        refine ⟨_ :: new, by rw [hnew, List.append_assoc]; rfl, .cons ?_ hall⟩
        exact ⟨⟨c, m1, ht⟩, by simp [hn], fun he => absurd he hn, fun _ => rfl⟩

theorem parseName_eq_empty_iff (names : List (Option String)) (h : identNames names = true) :
    parseName names = "" ↔ names = [] := by
  cases names with
  | nil => simp [parseName]
  | cons n rest =>
    cases n with
    | none => simp [identNames] at h
    | some name =>
      have hne : name ≠ "" := by
        simp only [identNames, List.all_cons, Bool.and_eq_true, decide_eq_true_eq] at h
        exact h.1
      simp [parseName, parseIdent, hne]

/-- C8: for every field list as `go/parser` builds it (the names of a field are
identifiers that are not empty, each resolved identifier carries the name of its
object, no object is declared by a pointer expression) on which `parseFields`
succeeds, the members correspond to the fields one by one, each member has
`IsInline` true exactly when its field has no name, and the `Name` of such a
member is the base name of the field's type expression under its pointer
markers. -/
theorem parseFields_inline_members (po : String → Object → Cache → Res SpecType)
    (heap : Nat → Object) (fields : List (Field Expr)) (c m : Cache)
    (members : List (Member TypeExpr))
    (hnames : ∀ f ∈ fields, identNames f.Names = true)
    (hres : ∀ f ∈ fields, resolvedNames heap f.Typ = true ∧ declKinds heap f.Typ = true)
    (h : parseFields po heap fields c = some (.ok members, m)) :
    List.Forall₂ (fun f mem =>
      (mem.IsInline = true ↔ f.Names = []) ∧
      (f.Names = [] → baseName f.Typ = some mem.Name)) fields members := by
  obtain ⟨new, hnew, hall⟩ := parseFieldsLoop_ok po heap fields [] c m members h
  rw [List.nil_append] at hnew
  subst hnew
  refine forall₂_of_mem hall ?_
  intro f hf mem hr
  obtain ⟨⟨c1, c2, ht⟩, hinl, hname, _⟩ := hr
  have hiff := parseName_eq_empty_iff f.Names (hnames f hf)
  refine ⟨?_, ?_⟩
  · rw [hinl, decide_eq_true_iff]; exact hiff
  · intro he
    exact parseType_inline_name po heap f.Typ c1 c2 mem.Expr mem.Typ mem.Name
      (hres f hf).1 (hres f hf).2 ht (hname (hiff.2 he))

/-- C8, witness: the embedded field `*User` gives the member `User` with
`IsInline` true; the named field `Total int64` gives a member that is not
inline. -/
theorem parseFields_inline_members_witness :
    (parseFields noObject shopHeap embeddedFields emptyM).map Prod.fst
      = some (.ok [
          { Name := "User", Typ := "*User", Expr := .PointerType (.StructType "User") "*User",
            Tag := "", Comments := [], Docs := [], IsInline := true },
          plainMember "Total" "int64" (.BasicType "int64" "int64")]) ∧
    List.Forall₂ (fun f mem =>
      (mem.IsInline = true ↔ f.Names = []) ∧
      (f.Names = [] → baseName f.Typ = some mem.Name)) embeddedFields
      [{ Name := "User", Typ := "*User", Expr := .PointerType (.StructType "User") "*User",
          Tag := "", Comments := [], Docs := [], IsInline := true },
        plainMember "Total" "int64" (.BasicType "int64" "int64")] :=
  ⟨rfl, parseFields_inline_members noObject shopHeap embeddedFields emptyM emptyM _
    (by decide) (by decide) rfl⟩

/-- C9: for every type expression as `go/parser` resolves it (each resolved
identifier carries the name of its object, no object is declared by a pointer
expression) on which `parseType` succeeds, the returned string form is the
string expression stored in the returned value and its canonical rendering,
through pointers, maps and sequences; and every member that `parseFields`
builds from such fields has its `Type` equal to the string expression and to
the rendering of its `Expr`. -/
theorem parseType_string_form_agrees (po : String → Object → Cache → Res SpecType)
    (heap : Nat → Object) :
    (∀ (e : Expr) (c m : Cache) (tp : TypeExpr) (s : String),
      resolvedNames heap e = true → declKinds heap e = true →
      parseType po heap e c = some (.ok (tp, s), m) →
      s = stringExprOf tp ∧ s = render tp) ∧
    (∀ (fields : List (Field Expr)) (c m : Cache) (members : List (Member TypeExpr)),
      (∀ f ∈ fields, resolvedNames heap f.Typ = true ∧ declKinds heap f.Typ = true) →
      parseFields po heap fields c = some (.ok members, m) →
      List.Forall₂ (fun (_ : Field Expr) mem =>
        mem.Typ = stringExprOf mem.Expr ∧ mem.Typ = render mem.Expr) fields members) := by
  refine ⟨parseType_render po heap, ?_⟩
  intro fields c m members hres h
  obtain ⟨new, hnew, hall⟩ := parseFieldsLoop_ok po heap fields [] c m members h
  rw [List.nil_append] at hnew
  subst hnew
  refine forall₂_of_mem hall ?_
  intro f hf mem hr
  obtain ⟨⟨c1, c2, ht⟩, _⟩ := hr
  exact parseType_render po heap f.Typ c1 c2 mem.Expr mem.Typ (hres f hf).1 (hres f hf).2 ht

/-- C9, witness: `map[string][]*Node` resolves to a map of sequences of
pointers whose string form is its rendering, `map[string][]*Node`. -/
theorem parseType_string_form_agrees_witness :
    parseType noObject nodeHeap
        (.MapType (.Ident "string" none) (.ArrayType (.StarExpr (.Ident "Node" (some 0))))) emptyM
      = some (.ok (.MapType "string"
          (.ArrayType (.PointerType (.StructType "Node") "*Node") "[]*Node")
          "map[string][]*Node", "map[string][]*Node"), emptyM) ∧
    ("map[string][]*Node" = stringExprOf (.MapType "string"
          (.ArrayType (.PointerType (.StructType "Node") "*Node") "[]*Node")
          "map[string][]*Node") ∧
      "map[string][]*Node" = render (.MapType "string"
          (.ArrayType (.PointerType (.StructType "Node") "*Node") "[]*Node")
          "map[string][]*Node")) :=
  ⟨rfl, (parseType_string_form_agrees noObject nodeHeap).1
    (.MapType (.Ident "string" none) (.ArrayType (.StarExpr (.Ident "Node" (some 0)))))
    emptyM emptyM _ _ rfl rfl rfl⟩

end ApiParser

namespace Gen

/-! ## The prefix literal of a cache key -/

/-- C6, the code at the documented input: for the table `user` and the key
field `id`, where the comments on `Key` give `Right` as `cache#user#id#`,
`genCacheKeys` produces `cache#User#id#`: the table part is `Camel(T)`, not
`lowerFirst(Camel(T))`, while the field part is `lowerFirst(Camel(F))`. -/
theorem genCacheKeys_right_keeps_camel_table :
    (match genCacheKeys ToCamel UnTitle userTable with
      | .ok m => (m "id").map (fun k => k.Right)
      | .error _ => none) = some "cache#User#id#" ∧
    "cache#" ++ UnTitle (ToCamel "user") ++ "#" ++ UnTitle (ToCamel "id") ++ "#"
      = "cache#user#id#" ∧
    ∀ (toCamel unTitle : String → String) (T F : String),
      (genKey toCamel unTitle T F).Right
        = "cache#" ++ toCamel T ++ "#" ++ unTitle (toCamel F) ++ "#" :=
  ⟨by decide, by decide, fun _ _ _ _ => rfl⟩

end Gen

namespace ApiParser

/-! ## Basic types, `time.Time` and unresolved identifiers -/

/-- C11: for every name in the closed set of basic type names, `parseType` of
an identifier with that name returns the basic type of that name, with the
name as string form, whether or not the identifier points to an object, and
leaves `objectM` as it is. -/
theorem parseType_basic_name (po : String → Object → Cache → Res SpecType)
    (heap : Nat → Object) (name : String) (obj : Option Nat) (c : Cache)
    (h : name ∈ ["bool", "uint8", "uint16", "uint32", "uint64", "int8", "int16", "int32",
      "int64", "float32", "float64", "complex64", "complex128", "string", "int", "uint",
      "uintptr", "byte", "rune", "Type", "Type1", "IntegerType", "FloatType",
      "ComplexType"]) :
    parseType po heap (.Ident name obj) c = some (.ok (.BasicType name name, name), c) := by
  have hb : isBasicType name = true := by
    unfold isBasicType
    exact decide_eq_true h
  simp only [parseType, hb, if_true]

/-- C11, witness: `int64` without an object, and `Type` pointing to an object. -/
theorem parseType_basic_name_witness :
    parseType noObject nodeHeap (.Ident "int64" none) emptyM
      = some (.ok (.BasicType "int64" "int64", "int64"), emptyM) ∧
    parseType noObject nodeHeap (.Ident "Type" (some 0)) emptyM
      = some (.ok (.BasicType "Type" "Type", "Type"), emptyM) :=
  ⟨parseType_basic_name noObject nodeHeap "int64" none emptyM (by decide),
    parseType_basic_name noObject nodeHeap "Type" (some 0) emptyM (by decide)⟩

/-- C12: `parseType` of the qualified reference `time.Time` succeeds and returns
the time type with the string form `time.Time`, whatever the identifier `time`
points to and whatever `objectM` holds. -/
theorem parseType_time_Time (po : String → Object → Cache → Res SpecType)
    (heap : Nat → Object) (obj : Option Nat) (c : Cache) :
    parseType po heap (.SelectorExpr (.Ident "time" obj) "Time") c
      = some (.ok (.TimeType "time.Time", "time.Time"), c) :=
  rfl

/-- C20: for every identifier whose name is not a basic type name and that
points to no object, `parseType` fails with the error that the member does not
exist, which carries the name. -/
theorem parseType_unresolved_ident (po : String → Object → Cache → Res SpecType)
    (heap : Nat → Object) (name : String) (c : Cache) (h : isBasicType name = false) :
    parseType po heap (.Ident name none) c = some (.error (.memberNotExist name), c) := by
  simp only [parseType, h]
  rfl

/-- C20, witness: the identifier `Ghost`, declared nowhere. -/
theorem parseType_unresolved_ident_witness :
    parseType noObject nodeHeap (.Ident "Ghost" none) emptyM
      = some (.error (.memberNotExist "Ghost"), emptyM) :=
  parseType_unresolved_ident noObject nodeHeap "Ghost" emptyM (by decide)

/-! ## Channels, functions and inline structs -/

theorem parseType_never_ok_of_unsupported (po : String → Object → Cache → Res SpecType)
    (heap : Nat → Object) :
    ∀ (e : Expr) (c m : Cache) (r : TypeExpr × String),
      containsUnsupported e = true → parseType po heap e c ≠ some (.ok r, m)
  | .ChanType, c, m, r, _ => by simp [parseType]
  | .FuncType, c, m, r, _ => by simp [parseType]
  | .StructType _, c, m, r, _ => by simp [parseType]
  | .StarExpr X, c, m, r, hc => by
    intro h
    obtain ⟨t1, s1, hx, _, _⟩ := parseType_star_inv po heap X c m r.1 r.2 h
    exact parseType_never_ok_of_unsupported po heap X c m (t1, s1)
      (by simpa [containsUnsupported] using hc) hx
  | .ArrayType Elt, c, m, r, hc => by
    intro h
    obtain ⟨t1, s1, hx, _, _⟩ := parseType_array_inv po heap Elt c m r.1 r.2 h
    exact parseType_never_ok_of_unsupported po heap Elt c m (t1, s1)
      (by simpa [containsUnsupported] using hc) hx
  | .MapType K V, c, m, r, hc => by
    intro h
    obtain ⟨k, v, vs, hk, hv, _, _⟩ := parseType_map_inv po heap K V c m r.1 r.2 h
    have hor : containsUnsupported K = true ∨ containsUnsupported V = true := by
      simpa [containsUnsupported] using hc
    rcases hor with hK | hV
    · exact parseType_never_ok_of_unsupported po heap K c c _ hK hk
    · exact parseType_never_ok_of_unsupported po heap V c m _ hV hv
  | .nil, _, _, _, hc => by simp [containsUnsupported] at hc
  | .Ident _ _, _, _, _, hc => by simp [containsUnsupported] at hc
  | .InterfaceType, _, _, _, hc => by simp [containsUnsupported] at hc
  | .SelectorExpr _ _, _, _, _, hc => by simp [containsUnsupported] at hc
  | .Other, _, _, _, hc => by simp [containsUnsupported] at hc

/-- C19: `parseType` fails on a channel, a function and an inline struct
expression with the error of that kind; an expression that contains one as the
target of a pointer, the element of a sequence, or the key or value of a map
never yields a type, whatever `objectM` holds; and on an expression as
`go/parser` resolves it the result is an error. -/
theorem parseType_unsupported_fails (po : String → Object → Cache → Res SpecType)
    (heap : Nat → Object) :
    (∀ c : Cache, parseType po heap .ChanType c = some (.error .chanUnsupport, c)) ∧
    (∀ c : Cache, parseType po heap .FuncType c = some (.error .funcUnsupport, c)) ∧
    (∀ (fields : Option (List (Field Expr))) (c : Cache),
      parseType po heap (.StructType fields) c = some (.error .structUnsupport, c)) ∧
    (∀ (e : Expr) (c m : Cache) (r : TypeExpr × String),
      containsUnsupported e = true → parseType po heap e c ≠ some (.ok r, m)) ∧
    (∀ (e : Expr) (c : Cache), containsUnsupported e = true → resolvedNames heap e = true →
      ∃ err, parseType po heap e c = some (.error err, c)) := by
  refine ⟨fun _ => rfl, fun _ => rfl, fun _ _ => rfl,
    parseType_never_ok_of_unsupported po heap, ?_⟩
  intro e c hc hn
  obtain ⟨r, hr⟩ := parseType_resolved heap e hn
  cases r with
  | error err => exact ⟨err, hr po c⟩
  | ok v => exact absurd (hr po c) (parseType_never_ok_of_unsupported po heap e c c v hc)

/-- C19, witness: `map[string][]*chan` fails with the channel error and never
yields a type. -/
theorem parseType_unsupported_fails_witness :
    parseType (parseObject nodeHeap 1) nodeHeap
        (.MapType (.Ident "string" none) (.ArrayType (.StarExpr .ChanType))) emptyM
      = some (.error .chanUnsupport, emptyM) ∧
    (∃ err, parseType (parseObject nodeHeap 1) nodeHeap
        (.MapType (.Ident "string" none) (.ArrayType (.StarExpr .ChanType))) emptyM
      = some (.error err, emptyM)) ∧
    (∀ (m : Cache) (r : TypeExpr × String),
      parseType (parseObject nodeHeap 1) nodeHeap
        (.MapType (.Ident "string" none) (.ArrayType (.StarExpr .ChanType))) emptyM
        ≠ some (.ok r, m)) :=
  ⟨rfl,
    (parseType_unsupported_fails (parseObject nodeHeap 1) nodeHeap).2.2.2.2
      (.MapType (.Ident "string" none) (.ArrayType (.StarExpr .ChanType))) emptyM rfl rfl,
    fun m r => (parseType_unsupported_fails (parseObject nodeHeap 1) nodeHeap).2.2.2.1
      (.MapType (.Ident "string" none) (.ArrayType (.StarExpr .ChanType))) emptyM m r rfl⟩

end ApiParser

namespace Gen

/-! ## The entries of the key map -/

/-- The map after the loop of `genCacheKeys`: under the source name of a key
field the `Key` of that name, elsewhere what the map held before. -/
theorem genCacheKeys_loop (toCamel unTitle : String → String) (tableName : String) :
    ∀ (fields : List Field) (m0 : String → Option Key) (s : String),
      (fields.foldl (fun m field =>
        if !field.IsKey then m
        else fun k => if k = field.Name then some (genKey toCamel unTitle tableName field.Name)
          else m k) m0) s
      = if fields.any (fun f => f.IsKey && decide (f.Name = s)) then
          some (genKey toCamel unTitle tableName s)
        else m0 s
  | [], m0, s => by simp
  | field :: rest, m0, s => by
    rw [List.foldl_cons, genCacheKeys_loop toCamel unTitle tableName rest _ s]
    by_cases hrest : rest.any (fun f => f.IsKey && decide (f.Name = s)) = true
    · simp [hrest]
    · cases hk : field.IsKey with
      | false => simp [hrest, hk]
      | true =>
        by_cases hs : s = field.Name
        · subst hs; simp [hrest, hk]
        · have hs2 : ¬ field.Name = s := fun e => hs e.symm
          simp [hrest, hk, hs, hs2]

/-- C15: `genCacheKeys` returns no error, and its map has an entry under the
source name `s` exactly when some field of the table that is marked as a key
has the source name `s`; fields that are not keys contribute nothing. -/
theorem genCacheKeys_entries (toCamel unTitle : String → String) (table : Table) :
    ∃ m, genCacheKeys toCamel unTitle table = .ok m ∧
      ∀ s : String, (m s).isSome = true ↔ ∃ f ∈ table.Fields, f.IsKey = true ∧ f.Name = s := by
  refine ⟨_, rfl, ?_⟩
  intro s
  rw [genCacheKeys_loop toCamel unTitle table.Name table.Fields (fun _ => none) s]
  by_cases h : table.Fields.any (fun f => f.IsKey && decide (f.Name = s)) = true
  · simp only [h, if_true, Option.isSome_some, true_iff]
    simpa using h
  · simp only [h, Option.isSome_none]
    have h2 : ¬ ∃ f ∈ table.Fields, f.IsKey = true ∧ f.Name = s := by simpa using h
    simp [h2]

/-- C16: for every table and every field of it that is marked as a key,
`genCacheKeys` holds a `Key` under the field's source name whose `Left` is
`"cache" ++ Camel(T) ++ Camel(F) ++ "Prefix"` and whose `Variable` is
`lowerFirst(Camel(T)) ++ Camel(F) ++ "Key"`. -/
theorem genCacheKeys_left_and_variable (toCamel unTitle : String → String) (table : Table)
    (f : Field) (hf : f ∈ table.Fields) (hk : f.IsKey = true) :
    ∃ m k, genCacheKeys toCamel unTitle table = .ok m ∧ m f.Name = some k ∧
      k.Left = "cache" ++ toCamel table.Name ++ toCamel f.Name ++ "Prefix" ∧
      k.Variable = unTitle (toCamel table.Name) ++ toCamel f.Name ++ "Key" := by
  refine ⟨_, genKey toCamel unTitle table.Name f.Name, rfl, ?_, rfl, rfl⟩
  rw [genCacheKeys_loop toCamel unTitle table.Name table.Fields (fun _ => none) f.Name]
  have h : table.Fields.any (fun g => g.IsKey && decide (g.Name = f.Name)) = true := by
    rw [List.any_eq_true]
    exact ⟨f, hf, by simp [hk]⟩
  simp only [h, if_true]

/-- C16, witness: the table `user` with the key field `id` gives the constant
name `cacheUserIdPrefix` and the variable `userIdKey`. -/
theorem genCacheKeys_left_and_variable_witness :
    (∃ m k, genCacheKeys ToCamel UnTitle userTable = .ok m ∧ m "id" = some k ∧
      k.Left = "cache" ++ ToCamel "user" ++ ToCamel "id" ++ "Prefix" ∧
      k.Variable = UnTitle (ToCamel "user") ++ ToCamel "id" ++ "Key") ∧
    "cache" ++ ToCamel "user" ++ ToCamel "id" ++ "Prefix" = "cacheUserIdPrefix" ∧
    UnTitle (ToCamel "user") ++ ToCamel "id" ++ "Key" = "userIdKey" :=
  ⟨genCacheKeys_left_and_variable ToCamel UnTitle userTable { Name := "id", IsKey := true }
    (by simp [userTable]) rfl, by decide, by decide⟩

end Gen

namespace ApiParser

/-! ## Comments -/

theorem parseCommentOrDoc_loop :
    ∀ (list : List (Option String)) (acc : List String),
      list.foldl (fun comments comment =>
        match comment with
        | none => comments
        | some text =>
          let text := TrimSpace text
          if text = "" then comments else comments ++ [text]) acc
      = acc ++ ((list.filterMap id).map TrimSpace).filter (fun t => decide (t ≠ ""))
  | [], acc => by simp
  | none :: rest, acc => by
    rw [List.foldl_cons, parseCommentOrDoc_loop rest acc]
    simp
  | some text :: rest, acc => by
    rw [List.foldl_cons]
    by_cases h : TrimSpace text = ""
    · simp only [h, if_true]
      rw [parseCommentOrDoc_loop rest acc]
      simp [h]
    · simp only [h, if_false]
      rw [parseCommentOrDoc_loop rest (acc ++ [TrimSpace text])]
      simp [h]

theorem getLast?_dropWhile {α : Type} (p : α → Bool) :
    ∀ (l : List α) (c : α), (l.dropWhile p).getLast? = some c → l.getLast? = some c
  | [], c, h => by simp at h
  | a :: l, c, h => by
    rw [List.dropWhile_cons] at h
    split at h
    · have ih := getLast?_dropWhile p l c h
      cases l with
      | nil => simp at ih
      | cons b l2 => rw [List.getLast?_cons_cons]; exact ih
    · exact h

/-- The result of `TrimSpace` neither starts nor ends with white space. -/
theorem TrimSpace_ends (s : String) (c : Char) :
    ((TrimSpace s).data.head? = some c → isSpace c = false) ∧
    ((TrimSpace s).data.getLast? = some c → isSpace c = false) := by
  unfold TrimSpace
  constructor
  · intro h
    rw [List.head?_reverse] at h
    have h2 := getLast?_dropWhile isSpace _ c h
    rw [List.getLast?_reverse] at h2
    have h3 := List.head?_dropWhile_not isSpace s.data
    rw [h2] at h3
    exact h3
  · intro h
    rw [List.getLast?_reverse] at h
    have h3 := List.head?_dropWhile_not isSpace (List.dropWhile isSpace s.data).reverse
    rw [h] at h3
    exact h3

/-- C17: `parseCommentOrDoc` returns the empty sequence for an absent comment
group, and for a comment group exactly the texts of its comments (nil comments
skipped) trimmed of surrounding white space, without those that are empty after
trimming, in their original order; so every returned string is not empty and
neither starts nor ends with white space. -/
theorem parseCommentOrDoc_trimmed_texts :
    parseCommentOrDoc none = [] ∧
    ∀ list : List (Option String),
      parseCommentOrDoc (some list)
        = ((list.filterMap id).map TrimSpace).filter (fun t => decide (t ≠ "")) ∧
      ∀ t ∈ parseCommentOrDoc (some list), t ≠ "" ∧
        (∀ c, t.data.head? = some c → isSpace c = false) ∧
        (∀ c, t.data.getLast? = some c → isSpace c = false) := by
  refine ⟨rfl, fun list => ?_⟩
  have heq : parseCommentOrDoc (some list)
      = ((list.filterMap id).map TrimSpace).filter (fun t => decide (t ≠ "")) := by
    unfold parseCommentOrDoc
    simp only
    rw [parseCommentOrDoc_loop list []]
    rfl
  refine ⟨heq, ?_⟩
  intro t ht
  rw [heq, List.mem_filter, List.mem_map] at ht
  obtain ⟨⟨text, _, rfl⟩, hne⟩ := ht
  exact ⟨by simpa using hne, fun c => (TrimSpace_ends text c).1, fun c => (TrimSpace_ends text c).2⟩

/-- C17, witness: of a padded comment, a nil comment, a blank comment and a
plain one, the two texts that are not blank come back trimmed, in order. -/
theorem parseCommentOrDoc_trimmed_texts_witness :
    parseCommentOrDoc (some sampleComments) = ["// user id", "// name"] ∧
    ("// user id" ≠ "" ∧
      (∀ c, ("// user id" : String).data.head? = some c → isSpace c = false) ∧
      (∀ c, ("// user id" : String).data.getLast? = some c → isSpace c = false)) :=
  ⟨by decide, (parseCommentOrDoc_trimmed_texts.2 sampleComments).2 "// user id" (by decide)⟩

/-! ## Embedded fields without a name to derive -/

theorem getInlineName_unsupported :
    ∀ tp : TypeExpr, namedUnderPointers tp = false →
      getInlineName tp = .error .ErrUnSupportInlineType
  | .PointerType Star _, h => by
    simp only [getInlineName]
    exact getInlineName_unsupported Star (by simpa [namedUnderPointers] using h)
  | .Typ _, h => by simp [namedUnderPointers] at h
  | .StructType _, h => by simp [namedUnderPointers] at h
  | .BasicType _ _, _ => rfl
  | .MapType _ _ _, _ => rfl
  | .ArrayType _ _, _ => rfl
  | .InterfaceType _, _ => rfl
  | .TimeType _, _ => rfl

theorem parseFieldsLoop_append (po : String → Object → Cache → Res SpecType)
    (heap : Nat → Object) :
    ∀ (pre rest : List (Field Expr)) (acc members : List (Member TypeExpr)) (c c1 : Cache),
      parseFieldsLoop po heap pre acc c = some (.ok members, c1) →
      parseFieldsLoop po heap (pre ++ rest) acc c = parseFieldsLoop po heap rest members c1
  | [], rest, acc, members, c, c1, h => by
    simp only [parseFieldsLoop, Option.some.injEq, Prod.mk.injEq, Except.ok.injEq] at h
    obtain ⟨rfl, rfl⟩ := h
    rfl
  | field :: pre, rest, acc, members, c, c1, h => by
    rw [List.cons_append]
    cases ht : parseType po heap field.Typ c with
    | none => simp [parseFieldsLoop, ht] at h
    | some rm =>
      obtain ⟨r, m1⟩ := rm
      cases r with
      | error err => simp [parseFieldsLoop, ht] at h
      | ok v =>
        obtain ⟨tp, stringExpr⟩ := v
        by_cases hn : parseName field.Names = ""
        · cases hi : getInlineName tp with
          | error err => simp [parseFieldsLoop, ht, hn, hi] at h
          | ok name =>
            simp only [parseFieldsLoop, ht, hn, hi, decide_True, if_true] at h ⊢
            exact parseFieldsLoop_append po heap pre rest _ members m1 c1 h
        · simp only [parseFieldsLoop, ht, hn, decide_False, Bool.false_eq_true, if_false] at h ⊢
          exact parseFieldsLoop_append po heap pre rest _ members m1 c1 h

/-- C18: when `parseFields` comes to a field without a name (the fields before
it have been built) and the type the field resolves to is, under its pointers,
not a definition or an inline placeholder (a basic type, map, sequence,
interface or time value), `parseFields` fails with `ErrUnSupportInlineType`;
the result carries no members. -/
theorem parseFields_unsupported_inline (po : String → Object → Cache → Res SpecType)
    (heap : Nat → Object) (pre post : List (Field Expr)) (f : Field Expr)
    (c c1 c2 : Cache) (members : List (Member TypeExpr)) (tp : TypeExpr) (s : String)
    (hpre : parseFields po heap pre c = some (.ok members, c1))
    (hname : f.Names = [])
    (ht : parseType po heap f.Typ c1 = some (.ok (tp, s), c2))
    (hn : namedUnderPointers tp = false) :
    parseFields po heap (pre ++ f :: post) c = some (.error .ErrUnSupportInlineType, c2) := by
  unfold parseFields at hpre ⊢
  rw [parseFieldsLoop_append po heap pre (f :: post) [] members c c1 hpre]
  unfold parseFieldsLoop
  simp only [ht, hname, parseName, decide_True, if_true, getInlineName_unsupported tp hn]

/-- C18, witness: in `struct { Total int64; *string }` the embedded pointer to
the basic type `string` makes `parseFields` fail with `ErrUnSupportInlineType`. -/
theorem parseFields_unsupported_inline_witness :
    parseFields noObject nodeHeap embeddedBasicFields emptyM
      = some (.error .ErrUnSupportInlineType, emptyM) :=
  parseFields_unsupported_inline noObject nodeHeap
    [plainField [some "Total"] (.Ident "int64" none)] []
    (plainField [] (.StarExpr (.Ident "string" none))) emptyM emptyM emptyM
    [plainMember "Total" "int64" (.BasicType "int64" "int64")]
    (.PointerType (.BasicType "string" "string") "*string") "*string" rfl rfl rfl rfl

end ApiParser

namespace ApiParser

/-! ## The invariant of `objectM` -/

theorem CacheOk_emptyM : CacheOk emptyM := by
  intro k t h
  simp [emptyM] at h

theorem CacheOk_set (c : Cache) (structName : String) (st : SpecType)
    (hc : CacheOk c) (hn : st.Name = structName) : CacheOk (c.set structName st) := by
  intro k t h
  unfold Cache.set at h
  split at h
  · rename_i hk
    simp only [Option.some.injEq] at h
    rw [← h, hn, hk]
  · exact hc k t h

theorem parseType_cacheOk (po : String → Object → Cache → Res SpecType) (heap : Nat → Object)
    (hpo : HandleOk po) :
    ∀ (e : Expr) (c m : Cache) (r : Except Error (TypeExpr × String)),
      CacheOk c → parseType po heap e c = some (r, m) → CacheOk m
  | .nil, c, m, r, hc, h => by
    simp only [parseType, Option.some.injEq, Prod.mk.injEq] at h
    rw [← h.2]; exact hc
  | .StarExpr X, c, m, r, hc, h => by
    cases hX : parseType po heap X c with
    | none => simp [parseType, hX] at h
    | some rm =>
      obtain ⟨r1, m1⟩ := rm
      have ih := parseType_cacheOk po heap hpo X c m1 r1 hc hX
      cases r1 with
      | error err =>
        simp only [parseType, hX, Option.some.injEq, Prod.mk.injEq] at h
        rw [← h.2]; exact ih
      | ok v =>
        simp only [parseType, hX, Option.some.injEq, Prod.mk.injEq] at h
        rw [← h.2]; exact ih
  | .Ident Name Obj, c, m, r, hc, h => by
    unfold parseType at h
    split at h
    · simp only [Option.some.injEq, Prod.mk.injEq] at h
      rw [← h.2]; exact hc
    · split at h
      · rename_i a
        simp only at h
        split at h
        · cases hp : po Name (heap a) c with
          | none => simp [hp] at h
          | some rm =>
            obtain ⟨r1, m1⟩ := rm
            have hm := (hpo Name (heap a) c r1 m1 hc hp).1
            cases r1 with
            | error err =>
              simp only [hp, Option.some.injEq, Prod.mk.injEq] at h
              rw [← h.2]; exact hm
            | ok v =>
              simp only [hp, Option.some.injEq, Prod.mk.injEq] at h
              rw [← h.2]; exact hm
        · split at h <;>
            (simp only [Option.some.injEq, Prod.mk.injEq] at h; rw [← h.2]; exact hc)
      · simp only [Option.some.injEq, Prod.mk.injEq] at h
        rw [← h.2]; exact hc
  | .MapType K V, c, m, r, hc, h => by
    cases hK : parseType po heap K c with
    | none => simp [parseType, hK] at h
    | some rm =>
      obtain ⟨r1, m1⟩ := rm
      have ihK := parseType_cacheOk po heap hpo K c m1 r1 hc hK
      cases r1 with
      | error err =>
        simp only [parseType, hK, Option.some.injEq, Prod.mk.injEq] at h
        rw [← h.2]; exact ihK
      | ok v =>
        obtain ⟨key, ks⟩ := v
        cases hV : parseType po heap V m1 with
        | none => simp [parseType, hK, hV] at h
        | some rm2 =>
          obtain ⟨r2, m2⟩ := rm2
          have ihV := parseType_cacheOk po heap hpo V m1 m2 r2 ihK hV
          cases r2 with
          | error err =>
            simp only [parseType, hK, hV, Option.some.injEq, Prod.mk.injEq] at h
            rw [← h.2]; exact ihV
          | ok v2 =>
            obtain ⟨value, vs⟩ := v2
            cases key <;>
              (simp only [parseType, hK, hV, Option.some.injEq, Prod.mk.injEq] at h
               rw [← h.2]; exact ihV)
  | .ArrayType Elt, c, m, r, hc, h => by
    cases hX : parseType po heap Elt c with
    | none => simp [parseType, hX] at h
    | some rm =>
      obtain ⟨r1, m1⟩ := rm
      have ih := parseType_cacheOk po heap hpo Elt c m1 r1 hc hX
      cases r1 with
      | error err =>
        simp only [parseType, hX, Option.some.injEq, Prod.mk.injEq] at h
        rw [← h.2]; exact ih
      | ok v =>
        simp only [parseType, hX, Option.some.injEq, Prod.mk.injEq] at h
        rw [← h.2]; exact ih
  | .InterfaceType, c, m, r, hc, h => by
    simp only [parseType, Option.some.injEq, Prod.mk.injEq] at h
    rw [← h.2]; exact hc
  | .ChanType, c, m, r, hc, h => by
    simp only [parseType, Option.some.injEq, Prod.mk.injEq] at h
    rw [← h.2]; exact hc
  | .FuncType, c, m, r, hc, h => by
    simp only [parseType, Option.some.injEq, Prod.mk.injEq] at h
    rw [← h.2]; exact hc
  | .StructType _, c, m, r, hc, h => by
    simp only [parseType, Option.some.injEq, Prod.mk.injEq] at h
    rw [← h.2]; exact hc
  | .SelectorExpr x sel, c, m, r, hc, h => by
    unfold parseType at h
    split at h
    · split at h <;>
        (simp only [Option.some.injEq, Prod.mk.injEq] at h; rw [← h.2]; exact hc)
    · simp only [Option.some.injEq, Prod.mk.injEq] at h
      rw [← h.2]; exact hc
  | .Other, c, m, r, hc, h => by
    simp only [parseType, Option.some.injEq, Prod.mk.injEq] at h
    rw [← h.2]; exact hc

theorem parseFieldsLoop_cacheOk (po : String → Object → Cache → Res SpecType)
    (heap : Nat → Object) (hpo : HandleOk po) :
    ∀ (fields : List (Field Expr)) (acc : List (Member TypeExpr)) (c m : Cache)
      (r : Except Error (List (Member TypeExpr))),
      CacheOk c → parseFieldsLoop po heap fields acc c = some (r, m) → CacheOk m
  | [], acc, c, m, r, hc, h => by
    simp only [parseFieldsLoop, Option.some.injEq, Prod.mk.injEq] at h
    rw [← h.2]; exact hc
  | field :: rest, acc, c, m, r, hc, h => by
    cases ht : parseType po heap field.Typ c with
    | none => simp [parseFieldsLoop, ht] at h
    | some rm =>
      obtain ⟨r1, m1⟩ := rm
      have hm1 := parseType_cacheOk po heap hpo field.Typ c m1 r1 hc ht
      cases r1 with
      | error err =>
        simp only [parseFieldsLoop, ht, Option.some.injEq, Prod.mk.injEq] at h
        rw [← h.2]; exact hm1
      | ok v =>
        obtain ⟨tp, stringExpr⟩ := v
        by_cases hn : parseName field.Names = ""
        · cases hi : getInlineName tp with
          | error err =>
            simp only [parseFieldsLoop, ht, hn, hi, decide_True, if_true, Option.some.injEq,
              Prod.mk.injEq] at h
            rw [← h.2]; exact hm1
          | ok name =>
            simp only [parseFieldsLoop, ht, hn, hi, decide_True, if_true] at h
            exact parseFieldsLoop_cacheOk po heap hpo rest _ m1 m r hm1 h
        · simp only [parseFieldsLoop, ht, hn, decide_False, Bool.false_eq_true, if_false] at h
          exact parseFieldsLoop_cacheOk po heap hpo rest _ m1 m r hm1 h

/-- `parseObject` keeps the invariant of `objectM`, and a definition it returns
carries the name it was asked for. -/
theorem parseObject_handleOk (heap : Nat → Object) :
    ∀ fuel : Nat, HandleOk (parseObject heap fuel)
  | 0 => by
    intro name obj c r m _ h
    simp [parseObject] at h
  | fuel + 1 => by
    intro name obj c r m hc h
    have ih := parseObject_handleOk heap fuel
    unfold parseObject at h
    split at h
    · rename_i data hd
      simp only [Option.some.injEq, Prod.mk.injEq] at h
      obtain ⟨rfl, rfl⟩ := h
      exact ⟨hc, fun st hst => by
        simp only [Except.ok.injEq] at hst
        rw [← hst]; exact hc name data hd⟩
    · simp only at h
      split at h
      · rename_i fieldList hdecl
        cases hf : parseFields (parseObject heap fuel) heap fieldList c with
        | none => simp [hf] at h
        | some rm =>
          obtain ⟨r1, m1⟩ := rm
          have hm1 := parseFieldsLoop_cacheOk (parseObject heap fuel) heap ih fieldList [] c m1 r1
            hc hf
          cases r1 with
          | error err =>
            simp only [hf, Option.some.injEq, Prod.mk.injEq] at h
            obtain ⟨rfl, rfl⟩ := h
            exact ⟨hm1, fun st hst => by simp at hst⟩
          | ok members =>
            simp only [hf, Option.some.injEq, Prod.mk.injEq] at h
            obtain ⟨rfl, rfl⟩ := h
            exact ⟨CacheOk_set m1 name _ hm1 rfl, fun st hst => by
              simp only [Except.ok.injEq] at hst
              rw [← hst]⟩
      · simp only [Option.some.injEq, Prod.mk.injEq] at h
        obtain ⟨rfl, rfl⟩ := h
        exact ⟨CacheOk_set c name _ hc rfl, fun st hst => by
          simp only [Except.ok.injEq] at hst
          rw [← hst]⟩

end ApiParser

namespace ApiParser

/-! ## The loop over the scope -/

theorem sortInsert_perm {α : Type} (less : α → α → Bool) (x : α) :
    ∀ l : List α, (sortInsert less x l).Perm (x :: l)
  | [] => List.Perm.refl _
  | y :: ys => by
    unfold sortInsert
    split
    · exact ((sortInsert_perm less x ys).cons y).trans (List.Perm.swap x y ys)
    · exact List.Perm.refl _

theorem sortSlice_perm {α : Type} (less : α → α → Bool) :
    ∀ l : List α, (sortSlice less l).Perm l
  | [] => List.Perm.refl _
  | x :: xs => (sortInsert_perm less x _).trans ((sortSlice_perm less xs).cons x)

/-- The loop of `parseStructAst` keeps the invariant of `objectM`, and when it
succeeds the definitions it has appended carry the names of the scope, in the
order of the visit. -/
theorem parseObjects_names (heap : Nat → Object) (fuel : Nat) :
    ∀ (objects : List (String × Nat)) (structs : List SpecType) (c m : Cache)
      (r : Except Error (List SpecType)),
      CacheOk c → parseObjects heap fuel objects structs c = some (r, m) →
      CacheOk m ∧ ∀ res, r = .ok res →
        res.map (fun st => st.Name) = structs.map (fun st => st.Name) ++ objects.map Prod.fst
  | [], structs, c, m, r, hc, h => by
    simp only [parseObjects, Option.some.injEq, Prod.mk.injEq] at h
    obtain ⟨rfl, rfl⟩ := h
    exact ⟨hc, fun res hres => by
      simp only [Except.ok.injEq] at hres
      simp [hres]⟩
  | (structName, obj) :: rest, structs, c, m, r, hc, h => by
    cases hp : parseObject heap fuel structName (heap obj) c with
    | none => simp [parseObjects, hp] at h
    | some rm =>
      obtain ⟨r1, m1⟩ := rm
      have hok := parseObject_handleOk heap fuel structName (heap obj) c r1 m1 hc hp
      cases r1 with
      | error err =>
        simp only [parseObjects, hp, Option.some.injEq, Prod.mk.injEq] at h
        obtain ⟨rfl, rfl⟩ := h
        exact ⟨hok.1, fun res hres => by simp at hres⟩
      | ok st =>
        simp only [parseObjects, hp] at h
        obtain ⟨hm, hres⟩ := parseObjects_names heap fuel rest (structs ++ [st]) m1 m r hok.1 h
        refine ⟨hm, fun res hr => ?_⟩
        rw [hres res hr]
        simp [hok.2 st rfl]

theorem parseObjects_length (heap : Nat → Object) (fuel : Nat) :
    ∀ (objects : List (String × Nat)) (structs res : List SpecType) (c m : Cache),
      parseObjects heap fuel objects structs c = some (.ok res, m) →
      res.length = structs.length + objects.length
  | [], structs, res, c, m, h => by
    simp only [parseObjects, Option.some.injEq, Prod.mk.injEq, Except.ok.injEq] at h
    simp [h.1]
  | (structName, obj) :: rest, structs, res, c, m, h => by
    cases hp : parseObject heap fuel structName (heap obj) c with
    | none => simp [parseObjects, hp] at h
    | some rm =>
      obtain ⟨r1, m1⟩ := rm
      cases r1 with
      | error err => simp [parseObjects, hp] at h
      | ok st =>
        simp only [parseObjects, hp] at h
        rw [parseObjects_length heap fuel rest (structs ++ [st]) res m1 m h]
        simp only [List.length_append, List.length_cons, List.length_nil]
        omega

theorem parseObjects_append (heap : Nat → Object) (fuel : Nat) :
    ∀ (pre rest : List (String × Nat)) (acc structs : List SpecType) (c m1 : Cache),
      parseObjects heap fuel pre acc c = some (.ok structs, m1) →
      parseObjects heap fuel (pre ++ rest) acc c = parseObjects heap fuel rest structs m1
  | [], rest, acc, structs, c, m1, h => by
    simp only [parseObjects, Option.some.injEq, Prod.mk.injEq, Except.ok.injEq] at h
    obtain ⟨rfl, rfl⟩ := h
    rfl
  | (structName, obj) :: pre, rest, acc, structs, c, m1, h => by
    rw [List.cons_append]
    cases hp : parseObject heap fuel structName (heap obj) c with
    | none => simp [parseObjects, hp] at h
    | some rm =>
      obtain ⟨r1, m2⟩ := rm
      cases r1 with
      | error err => simp [parseObjects, hp] at h
      | ok st =>
        simp only [parseObjects, hp] at h ⊢
        exact parseObjects_append heap fuel pre rest _ structs m2 m1 h

/-- `parseStructAst` keeps the invariant of `objectM`, whatever it returns. -/
theorem parseStructAst_cacheOk (parseFile : String → Except String File) (fuel : Nat)
    (golang : String) (objectM m : Cache) (r : Except Error (List SpecType))
    (hc : CacheOk objectM) (h : parseStructAst parseFile fuel golang objectM = some (r, m)) :
    CacheOk m := by
  unfold parseStructAst at h
  simp only at h
  cases hp : parseFile (if (!HasPrefix golang pkgPrefix) = true then golangF golang else golang) with
  | error err =>
    simp only [hp, Option.some.injEq, Prod.mk.injEq] at h
    rw [← h.2]; exact hc
  | ok f =>
    simp only [hp] at h
    cases hs : f.Scope with
    | none =>
      simp only [hs, Option.some.injEq, Prod.mk.injEq] at h
      rw [← h.2]; exact hc
    | some objects =>
      simp only [hs] at h
      cases ho : parseObjects f.heap fuel objects [] objectM with
      | none => simp [ho] at h
      | some rm =>
        obtain ⟨r1, m1⟩ := rm
        have hm := (parseObjects_names f.heap fuel objects [] objectM m1 r1 hc ho).1
        cases r1 with
        | error err =>
          simp only [ho, Option.some.injEq, Prod.mk.injEq] at h
          rw [← h.2]; exact hm
        | ok structs =>
          simp only [ho, Option.some.injEq, Prod.mk.injEq] at h
          rw [← h.2]; exact hm

/-- What a successful `parseStructAst` returns: the definitions that the loop
over the scope has collected, sorted. -/
theorem parseStructAst_ok_inv (parseFile : String → Except String File) (fuel : Nat)
    (golang : String) (objectM : Cache) (f : File) (objects : List (String × Nat))
    (res : List SpecType)
    (hfile : parseFile (if (!HasPrefix golang pkgPrefix) = true then golangF golang else golang)
      = .ok f)
    (hscope : f.Scope = some objects)
    (h : (parseStructAst parseFile fuel golang objectM).map Prod.fst = some (.ok res)) :
    ∃ structs m, parseObjects f.heap fuel objects [] objectM = some (.ok structs, m) ∧
      res = sortSlice (fun a b => strLess a.Name b.Name) structs := by
  unfold parseStructAst at h
  simp only [hfile, hscope] at h
  cases ho : parseObjects f.heap fuel objects [] objectM with
  | none => simp [ho] at h
  | some rm =>
    obtain ⟨r1, m1⟩ := rm
    cases r1 with
    | error err => simp [ho] at h
    | ok structs =>
      simp only [ho, Option.map_some', Option.some.injEq, Except.ok.injEq] at h
      exact ⟨structs, m1, rfl, h.symm⟩

/-- C13: when `parseStructAst` succeeds, started from any content of `objectM`
that the parser can have left behind (every entry carries the name it is stored
under), the names of the returned definitions are exactly the declaration names
of the scope, one definition per declaration, and no name occurs twice. -/
theorem parseStructAst_names_unique (parseFile : String → Except String File) (fuel : Nat)
    (golang : String) (objectM : Cache) (f : File) (objects : List (String × Nat))
    (res : List SpecType)
    (hc : CacheOk objectM)
    (hfile : parseFile (if (!HasPrefix golang pkgPrefix) = true then golangF golang else golang)
      = .ok f)
    (hscope : f.Scope = some objects)
    (hkeys : (objects.map Prod.fst).Nodup)
    (h : (parseStructAst parseFile fuel golang objectM).map Prod.fst = some (.ok res)) :
    (res.map (fun st => st.Name)).Nodup ∧
    (res.map (fun st => st.Name)).Perm (objects.map Prod.fst) := by
  obtain ⟨structs, m, ho, rfl⟩ :=
    parseStructAst_ok_inv parseFile fuel golang objectM f objects res hfile hscope h
  have hnames := (parseObjects_names f.heap fuel objects [] objectM m _ hc ho).2 structs rfl
  simp only [List.map_nil, List.nil_append] at hnames
  have hperm : ((sortSlice (fun a b => strLess a.Name b.Name) structs).map
      (fun st => st.Name)).Perm (objects.map Prod.fst) := by
    rw [← hnames]
    exact (sortSlice_perm _ structs).map _
  exact ⟨hperm.nodup_iff.2 hkeys, hperm⟩

/-- C13, witness: the zoo built on top of what an earlier build of `Apple` left
in `objectM` returns the names Apple, Mango, Zebra, each once. -/
theorem parseStructAst_names_unique_witness :
    (List.map (fun st : SpecType => st.Name)
      [⟨"Apple", [plainMember "core" "int64" (.BasicType "int64" "int64")]⟩,
        ⟨"Mango", []⟩, ⟨"Zebra", []⟩]).Nodup ∧
    (List.map (fun st : SpecType => st.Name)
      [⟨"Apple", [plainMember "core" "int64" (.BasicType "int64" "int64")]⟩,
        ⟨"Mango", []⟩, ⟨"Zebra", []⟩]).Perm
      (List.map Prod.fst [("Zebra", 0), ("Apple", 1), ("Mango", 2)]) :=
  parseStructAst_names_unique zooFile 1 "type Zebra struct\x7b\x7d" afterOrchard
    ⟨zooHeap, some [("Zebra", 0), ("Apple", 1), ("Mango", 2)]⟩
    [("Zebra", 0), ("Apple", 1), ("Mango", 2)] _
    (by
      unfold afterOrchard
      cases h : parseStructAst orchardFile 1 "type Apple struct \x7b core int64 \x7d" emptyM with
      | none => exact CacheOk_emptyM
      | some rm => exact parseStructAst_cacheOk _ _ _ _ _ _ CacheOk_emptyM h)
    rfl rfl (by decide) rfl

/-- C14: `parseStructAst` stops at the first declaration that fails: when the
declarations visited before have been resolved and `parseObject` returns an
error for the next one, `parseStructAst` returns that error, with no model;
`parseObject` hands on the error of `parseFields` for a declaration it has to
resolve; and a model that is returned has one definition for each declaration
of the scope. -/
theorem parseStructAst_fail_fast (parseFile : String → Except String File) (fuel : Nat)
    (golang : String) (objectM : Cache) (f : File)
    (hfile : parseFile (if (!HasPrefix golang pkgPrefix) = true then golangF golang else golang)
      = .ok f) :
    (∀ (pre post : List (String × Nat)) (name : String) (a : Nat) (structs : List SpecType)
      (m1 m2 : Cache) (e : Error),
      f.Scope = some (pre ++ (name, a) :: post) →
      parseObjects f.heap fuel pre [] objectM = some (.ok structs, m1) →
      parseObject f.heap fuel name (f.heap a) m1 = some (.error e, m2) →
      parseStructAst parseFile fuel golang objectM = some (.error e, m2)) ∧
    (∀ (name : String) (obj : Object) (fieldList : List (Field Expr)) (c m : Cache) (e : Error),
      c name = none → obj.Decl = .TypeSpec (.StructType (some fieldList)) →
      parseFields (parseObject f.heap fuel) f.heap fieldList c = some (.error e, m) →
      parseObject f.heap (fuel + 1) name obj c = some (.error e, m)) ∧
    (∀ (objects : List (String × Nat)) (res : List SpecType),
      f.Scope = some objects →
      (parseStructAst parseFile fuel golang objectM).map Prod.fst = some (.ok res) →
      res.length = objects.length) := by
  refine ⟨?_, ?_, ?_⟩
  · intro pre post name a structs m1 m2 e hscope hpre herr
    unfold parseStructAst
    simp only [hfile, hscope]
    rw [parseObjects_append f.heap fuel pre ((name, a) :: post) [] structs objectM m1 hpre]
    simp only [parseObjects, herr]
  · intro name obj fieldList c m e hc hdecl hf
    simp only [parseObject, hc, hdecl, hf]
  · intro objects res hscope h
    obtain ⟨structs, m, ho, rfl⟩ :=
      parseStructAst_ok_inv parseFile fuel golang objectM f objects res hfile hscope h
    have hlen := (sortSlice_perm (fun a b : SpecType => strLess a.Name b.Name) structs).length_eq
    rw [hlen, parseObjects_length f.heap fuel objects [] structs objectM m ho]
    simp

/-- C14, witness: `Apple` resolves, then `Pipe` with its channel field fails;
`parseStructAst` returns the channel error and no model. -/
theorem parseStructAst_fail_fast_witness :
    parseStructAst pipeFile 1 "type Apple struct\x7b\x7d" emptyM
      = some (.error .chanUnsupport, emptyM.set "Apple" ⟨"Apple", []⟩) :=
  (parseStructAst_fail_fast pipeFile 1 "type Apple struct\x7b\x7d" emptyM
    ⟨fun a =>
        if a = 0 then { Name := "Apple", Decl := .TypeSpec (.StructType (some [])) }
        else { Name := "Pipe",
               Decl := .TypeSpec (.StructType (some [plainField [some "ch"] .ChanType])) },
      some [("Apple", 0), ("Pipe", 1)]⟩ rfl).1
    [("Apple", 0)] [] "Pipe" 1 [⟨"Apple", []⟩] (emptyM.set "Apple" ⟨"Apple", []⟩)
    (emptyM.set "Apple" ⟨"Apple", []⟩) .chanUnsupport rfl rfl rfl

end ApiParser

namespace ApiParser

/-! ## Declarations without a field list -/

/-- C21: for every declaration name that has no entry in `objectM` and every
object whose declaration gives no field list to resolve (no declaration, not a
type declaration, no type, not a struct type, or a struct with a nil field
list), `parseObject` returns, with every recursion budget that lets it run, the
definition with that name and no members, never an error, and stores it in
`objectM` under the name. -/
theorem parseObject_without_field_list (heap : Nat → Object) (fuel : Nat)
    (structName : String) (obj : Object) (objectM : Cache)
    (hc : objectM structName = none) (hd : noFieldList obj.Decl = true) :
    parseObject heap (fuel + 1) structName obj objectM
      = some (.ok { Name := structName, Members := [] },
          objectM.set structName { Name := structName, Members := [] }) := by
  rcases obj with ⟨name, decl⟩
  cases decl with
  | TypeSpec tp =>
    cases tp with
    | StructType fields =>
      cases fields with
      | some fieldList => simp [noFieldList] at hd
      | none => simp only [parseObject, hc]
    | _ => simp only [parseObject, hc]
  | _ => simp only [parseObject, hc]

/-- C21, witness: `type Alias int64`, whose type is not a struct type, and a
function object, which is not a type declaration, each give a definition
without members. -/
theorem parseObject_without_field_list_witness :
    parseObject nodeHeap 1 "Alias" { Name := "Alias", Decl := .TypeSpec (.Ident "int64" none) }
        emptyM
      = some (.ok { Name := "Alias", Members := [] },
          emptyM.set "Alias" { Name := "Alias", Members := [] }) ∧
    parseObject nodeHeap 1 "Run" { Name := "Run", Decl := .Other } emptyM
      = some (.ok { Name := "Run", Members := [] },
          emptyM.set "Run" { Name := "Run", Members := [] }) :=
  ⟨parseObject_without_field_list nodeHeap 0 "Alias"
      { Name := "Alias", Decl := .TypeSpec (.Ident "int64" none) } emptyM rfl rfl,
    parseObject_without_field_list nodeHeap 0 "Run" { Name := "Run", Decl := .Other } emptyM
      rfl rfl⟩

end ApiParser
